import Mathlib

/-!
Verification development for the picodi dependency-injection container.

The Go source is shallowly embedded as follows:
* reflect types are values of "Ty"; interface satisfaction ("Implements") is
  resolved through an explicit environment assigning method sets to types,
  as the runtime method-set check of Go reflect.
* The container ("PicoDI") is a state "St": a heap of injectors plus the
  name-keyed and type-keyed registries.  Go map iteration order is
  determinized to insertion order (the properties proved do not depend on
  the iteration order of the Go maps).
* Cleanup closures with captured mutable variables are embedded as a heap
  of closure records ("Clos") whose mutable captured variables live in
  explicit cells ("oCells" for Option-typed captures, "lCells" for
  slice-typed captures).  Each closure form corresponds to one closure
  literal of the source.  Running a closure is the state transition
  "runClean"; user-supplied cleanup callbacks are observed through the
  "log" field.
* Producer bodies (user factory functions) are modelled by "FnVal": calling
  one appends its tag and arguments to the "calls" field (the side-effect
  counter of the spec), draws fresh instance identities from "valCtr", and
  returns results shaped by its declared output types.
* Fallible operations return explicit error values ("Err"); the sentinel
  identity of part_002 (errors wrapped with a %w sentinel) is captured by
  the predicates "Err.isNotFound" etc.  A Go panic during registration is
  the explicit outcome "RegOut.panicked".
* General recursion of the resolution engine (which can diverge on cyclic
  provider graphs) is made total with a fuel parameter; fuel exhaustion is
  the distinguished error "Err.outOfFuel".
-/

namespace Picodi

/-- Go types as seen by the container: concrete (atom) types, interface
types, the special map type keyed by picodi.Named, the error interface and
the picodi.Clean function type. -/
inductive Ty where
  | atom (n : Nat)
  | ifaceT (n : Nat)
  | namedMap (elem : Ty)
  | errT
  | cleanT
deriving DecidableEq, Repr

/-- Go reflect kinds relevant to instantiateAndWire and wireFields. -/
inductive GoKind where
  | kstruct
  | kptrStruct
  | kother
deriving DecidableEq, Repr

/-- A struct field together with its raw wire tag payload, as in the Go
struct tag wire:"name,transient". "none" means there is no wire tag. -/
structure FieldSpec where
  tag : Option String
  ftype : Ty
deriving DecidableEq, Repr

/-- Behaviour of an AfterWire implementation: it is invoked once after the
fields are populated, may return a cleanup (a base callback with the given
tag) and may return an error. -/
structure AWSpec where
  awTag : Nat
  retClean : Option Nat
  awErr : Option Nat
deriving DecidableEq, Repr

/-- The runtime type information of the program under test: method sets of
concrete types and interfaces (for reflect Implements), reflect kinds,
struct fields and AfterWirer implementations of struct atoms. -/
structure Env where
  methodsA : Nat → List String
  ifaceMs : Nat → List String
  kindA : Nat → GoKind
  fieldsA : Nat → List FieldSpec
  afterWA : Nat → Option AWSpec

def subsetB (a b : List String) : Bool := a.all (fun x => b.contains x)

/-- reflect Implements: the method set required by the interface is
contained in the method set of the type. -/
def implementsB (env : Env) (t i : Ty) : Bool :=
  match t, i with
  | .atom n, .ifaceT m => subsetB (env.ifaceMs m) (env.methodsA n)
  | .ifaceT n, .ifaceT m => subsetB (env.ifaceMs m) (env.ifaceMs n)
  | _, _ => false

def isIfaceTy : Ty → Bool
  | .ifaceT _ => true
  | _ => false

/-- Runtime values.  A prim carries its type and an instance identity drawn
from the allocation counter, so that distinct creations are distinguishable.
zeroV is the reflect.Zero placeholder of a dry run, vmap an aggregated
named-collection map, vnil the nil interface value. -/
inductive Val where
  | prim (t : Ty) (id : Nat)
  | zeroV (t : Ty)
  | vmap (pairs : List (String × Val))
  | vnil
  | verr (e : Nat)
  | vcleanV (c : Option Nat)

/-- A Go function value (factory provider or wire target): its reflect
signature plus the behaviour of its body when called.  The body appends its
tag to the call log, returns a freshly created value for its first result,
a cleanup callback for a Clean-typed result (nil when cleanNil), and fErr
for an error-typed result. -/
structure FnVal where
  ins : List Ty
  outs : List Ty
  tag : Nat
  cleanTag : Nat
  cleanNil : Bool
  fErr : Option Nat

/-- A registered provider: a plain value or a factory function. -/
inductive Prov where
  | valueP (v : Val)
  | funcP (f : FnVal)

/-- Cleanup closures of the source, one constructor per closure literal:
base is a user-supplied callback (observed in the log); deps is the
cleanDeps closure over a cleans slice cell; fiClear is the clear closure of
funcInjection (runs cleanDeps, then the producer cleanup, which it does not
consume); iawC is the composed closure of instantiateAndWire over two
Option cells; singWrap is the caching wrapper installed by get, which also
erases the cached instance and cleanup of its injector; awClear is the
composed closure of wireFields for an AfterWirer. -/
inductive Clos where
  | base (t : Nat)
  | deps (cell : Nat)
  | fiClear (depsClos : Nat) (own : Option Nat)
  | iawC (a b : Nat)
  | singWrap (cc : Nat) (inj : Nat)
  | awClear (depsClos : Nat) (ownCell : Nat)

/-- One injector record of the source: provider, cached instance, cached
cleanup, transient flag and produced type. -/
structure Injector where
  prov : Prov
  inst : Option Val
  clean : Option Nat
  transientF : Bool
  typ : Ty

/-- The container state: injector heap, the two registries (association
lists in insertion order), the closure heap with its mutable cells, the
instance-identity counter, the producer call log (tag and arguments), the
AfterWire call log, and the log of executed user cleanup callbacks. -/
structure St where
  injs : List Injector
  named : List (String × Nat)
  typed : List (Ty × Nat)
  oCells : List (Option Nat)
  lCells : List (List Nat)
  clos : List Clos
  valCtr : Nat
  calls : List (Nat × List Val)
  awCalls : List Nat
  log : List Nat

/-- A result of reflect Call, as inspected by funcInjection: an ordinary
value, a Clean (possibly nil) or an error (possibly nil). -/
inductive Dyn where
  | dval (v : Val)
  | dclean (c : Option Nat)
  | derr (e : Option Nat)

def listModify (l : List α) (i : Nat) (g : α → α) : List α :=
  match l.get? i with
  | none => l
  | some a => l.set i (g a)

def St.injAt (s : St) (i : Nat) : Option Injector := s.injs.get? i

def St.oCellD (s : St) (i : Nat) : Option Nat := (s.oCells.get? i).getD none

def St.lCellD (s : St) (i : Nat) : List Nat := (s.lCells.get? i).getD []

def St.closAt (s : St) (c : Nat) : Option Clos := s.clos.get? c

def setInst (s : St) (i : Nat) (v : Option Val) : St :=
  { s with injs := listModify s.injs i (fun inj => { inj with inst := v }) }

def setCleanF (s : St) (i : Nat) (c : Option Nat) : St :=
  { s with injs := listModify s.injs i (fun inj => { inj with clean := c }) }

def setOCell (s : St) (i : Nat) (v : Option Nat) : St :=
  { s with oCells := s.oCells.set i v }

def setLCell (s : St) (i : Nat) (v : List Nat) : St :=
  { s with lCells := s.lCells.set i v }

def allocO (s : St) (v : Option Nat) : St × Nat :=
  ({ s with oCells := s.oCells ++ [v] }, s.oCells.length)

def allocL (s : St) (v : List Nat) : St × Nat :=
  ({ s with lCells := s.lCells ++ [v] }, s.lCells.length)

def allocClos (s : St) (c : Clos) : St × Nat :=
  ({ s with clos := s.clos ++ [c] }, s.clos.length)

/-- The shared pattern of the closure bodies: if the captured cleanup
variable is not nil, invoke it and set it to nil. -/
def consumeO (run1 : St → Nat → St) (s : St) (i : Nat) : St :=
  match s.oCellD i with
  | none => s
  | some k => setOCell (run1 s k) i none

/-- Running a cleanup closure (invoking the Go closure), fuel-bounded.
Mirrors the closure bodies of the source: reads of captured variables are
cell reads, assignments of nil are cell erasures, and the singWrap body
additionally erases the instance and clean fields of its injector. -/
def runClean : Nat → St → Nat → St
  | 0, s, _ => s
  | fuel+1, s, c =>
    match s.closAt c with
    | none => s
    | some (.base t) => { s with log := s.log ++ [t] }
    | some (.deps d) =>
      let l := s.lCellD d
      let s1 := l.foldl (fun acc x => runClean fuel acc x) s
      setLCell s1 d []
    | some (.fiClear dc own) =>
      let s1 := runClean fuel s dc
      match own with
      | none => s1
      | some k => runClean fuel s1 k
    | some (.iawC a b) =>
      consumeO (runClean fuel) (consumeO (runClean fuel) s a) b
    | some (.singWrap cc i) =>
      setCleanF (setInst (consumeO (runClean fuel) s cc) i none) i none
    | some (.awClear dc oc) =>
      consumeO (runClean fuel) (runClean fuel s dc) oc

/-- Running a list of cleanups left to right (the cleanDeps loop body). -/
def runCleanList (fuel : Nat) (s : St) (l : List Nat) : St :=
  l.foldl (fun acc x => runClean fuel acc x) s

/-- Errors of the resolution engine.  In part_002 the not-found, multiple
and already-exists errors wrap the exported sentinels with the %w verb; the
constructors here carry the sentinel identity directly. -/
inductive Err where
  | notFoundName (nm : String)
  | notFoundType (t : Ty)
  | notFoundIface (t : Ty)
  | notFoundNamedAgg
  | multipleFound (t : Ty)
  | alreadyExists
  | emptyName
  | invalidProviderFn (k : Nat)
  | invalidWireFn (k : Nat)
  | invalidWireTarget
  | userErr (e : Nat)
  | missingInjector
  | outOfFuel
deriving DecidableEq, Repr

/-- errors.Is(err, ErrProviderNotFound), part_002. -/
def Err.isNotFound : Err → Bool
  | .notFoundName _ => true
  | .notFoundType _ => true
  | .notFoundIface _ => true
  | .notFoundNamedAgg => true
  | _ => false

/-- errors.Is(err, ErrMultipleProvidersFound), part_002. -/
def Err.isMultiple : Err → Bool
  | .multipleFound _ => true
  | _ => false

/-- Outcome of one engine call: a value and an optional cleanup, or an
error.  The error also carries an optional cleanup because wireFields can
return both a cleanup and an error on the AfterWire error path. -/
inductive EOut where
  | okO (v : Val) (c : Option Nat)
  | errO (e : Err) (c : Option Nat)

structure Res where
  st : St
  out : EOut

/-- Requests of the resolution engine, one per mutually recursive function
of the source: getByName, getByType, get, instantiateAndWire,
funcInjection and wireFields. -/
inductive Req where
  | byName (nm : String) (tr dry : Bool)
  | byType (t : Ty) (tr dry : Bool)
  | getInj (i : Nat) (tr dry : Bool)
  | iaw (i : Nat) (dry : Bool)
  | fi (f : FnVal) (dry : Bool)
  | wf (sid : Nat) (dry : Bool)

def Req.dryFlag : Req → Bool
  | .byName _ _ d => d
  | .byType _ _ d => d
  | .getInj _ _ d => d
  | .iaw _ d => d
  | .fi _ d => d
  | .wf _ d => d

def lookupStr : List (String × Nat) → String → Option Nat
  | [], _ => none
  | (k, v) :: rest, nm => if k = nm then some v else lookupStr rest nm

def lookupTy : List (Ty × Nat) → Ty → Option Nat
  | [], _ => none
  | (k, v) :: rest, t => if k = t then some v else lookupTy rest t

/-- The interface scan of getByType: all type-keyed injectors whose
produced type implements the interface (iteration determinized to
insertion order). -/
def ifaceMatches (env : Env) (s : St) (t : Ty) : List (Ty × Nat) :=
  s.typed.filter (fun p =>
    match s.injAt p.2 with
    | some inj => implementsB env inj.typ t
    | none => false)

/-- The match condition of the named-collection aggregation in
funcInjection: the produced type implements the requested interface, or is
exactly the requested element type. -/
def matchesElem (env : Env) (elemT injTyp : Ty) : Bool :=
  (isIfaceTy elemT && implementsB env injTyp elemT) || injTyp == elemT

/-- Outcome of an argument-gathering loop: the state, the cleanups
collected so far (the cleans slice, handed back so the caller can run the
deferred cleanDeps rollback on error), and the result. -/
inductive LoopOut (α : Type) where
  | lok (a : α)
  | lerr (e : Err)

structure LoopRes (α : Type) where
  st : St
  cleans : List Nat
  out : LoopOut α

/-- The named-collection aggregation loop of funcInjection: walk the named
registry, resolve every injector whose produced type matches, collect the
pairs and the cleanups. -/
def aggLoop (kn : St → String → Res) (env : Env) (elemT : Ty) :
    St → List (String × Nat) → List (String × Val) → List Nat →
    LoopRes (List (String × Val))
  | s, [], pairs, cls => ⟨s, cls, .lok pairs⟩
  | s, (nm, i) :: rest, pairs, cls =>
    match s.injAt i with
    | none => aggLoop kn env elemT s rest pairs cls
    | some inj =>
      if matchesElem env elemT inj.typ then
        match kn s nm with
        | ⟨s1, .errO e _⟩ => ⟨s1, cls, .lerr e⟩
        | ⟨s1, .okO v c⟩ =>
          let cls1 := match c with | some x => cls ++ [x] | none => cls
          aggLoop kn env elemT s1 rest (pairs ++ [(nm, v)]) cls1
      else aggLoop kn env elemT s rest pairs cls

/-- The argument loop of funcInjection: a parameter of type
map[Named]T triggers aggregation, any other parameter resolves by type. -/
def argsLoop (kn : St → String → Res) (kt : St → Ty → Res) (env : Env) :
    St → List Ty → List Val → List Nat → LoopRes (List Val)
  | s, [], argv, cls => ⟨s, cls, .lok argv⟩
  | s, at0 :: rest, argv, cls =>
    match at0 with
    | .namedMap elemT =>
      match aggLoop kn env elemT s s.named [] cls with
      | ⟨s1, cls1, .lerr e⟩ => ⟨s1, cls1, .lerr e⟩
      | ⟨s1, cls1, .lok pairs⟩ =>
        if pairs.isEmpty then ⟨s1, cls1, .lerr .notFoundNamedAgg⟩
        else argsLoop kn kt env s1 rest (argv ++ [.vmap pairs]) cls1
    | _ =>
      match kt s at0 with
      | ⟨s1, .errO e _⟩ => ⟨s1, cls, .lerr e⟩
      | ⟨s1, .okO v c⟩ =>
        argsLoop kn kt env s1 rest (argv ++ [v])
          (match c with | some x => cls ++ [x] | none => cls)

/-- The field loop of wireFields: for every field with a wire tag, split
the payload on commas, read the transient flag and the name, resolve by
name or by the declared field type, and collect the cleanups. -/
def wfLoop (kn : St → String → Bool → Res) (kt : St → Ty → Bool → Res) :
    St → List FieldSpec → List Nat → LoopRes Unit
  | s, [], cls => ⟨s, cls, .lok ()⟩
  | s, fd :: rest, cls =>
    match fd.tag with
    | none => wfLoop kn kt s rest cls
    | some payload =>
      let splits := payload.splitOn ","
      let tr := splits.any (fun x => x == "transient")
      let nm := splits.headD ""
      match (if nm = "" then kt s fd.ftype tr else kn s nm tr) with
      | ⟨s1, .errO e _⟩ => ⟨s1, cls, .lerr e⟩
      | ⟨s1, .okO _ c⟩ =>
        wfLoop kn kt s1 rest (match c with | some x => cls ++ [x] | none => cls)

/-- The body of reflect Call for a modelled function: one Dyn per declared
result; the first result is a freshly created value, later Clean-typed
results yield the cleanup callback of the function (or nil), later
error-typed results yield its configured error. -/
def callOuts (f : FnVal) : St → Nat → List Ty → St × List Dyn
  | s, _, [] => (s, [])
  | s, i, t :: rest =>
    let p :=
      if 0 < i && t == Ty.cleanT then
        if f.cleanNil then (s, Dyn.dclean none)
        else
          let q := allocClos s (.base f.cleanTag)
          (q.1, Dyn.dclean (some q.2))
      else if 0 < i && t == Ty.errT then (s, Dyn.derr f.fErr)
      else ({ s with valCtr := s.valCtr + 1 }, Dyn.dval (.prim t s.valCtr))
    let r := callOuts f p.1 (i + 1) rest
    (r.1, p.2 :: r.2)

/-- provider.Call: record the invocation (tag and arguments) and produce
the declared results. -/
def callFn (s : St) (f : FnVal) (argv : List Val) : St × List Dyn :=
  callOuts f { s with calls := s.calls ++ [(f.tag, argv)] } 0 f.outs

/-- results[i].Interface() seen as a value. -/
def dynVal : Dyn → Val
  | .dval v => v
  | .dclean c => .vcleanV c
  | .derr none => .vnil
  | .derr (some e) => .verr e

/-- Allocate the clear closure of funcInjection: the cleans cell, the
cleanDeps closure over it, and clear itself (cleanDeps then the producer
cleanup). -/
def mkFiClear (s : St) (cls : List Nat) (own : Option Nat) (value : Val) : Res :=
  let p1 := allocL s cls
  let p2 := allocClos p1.1 (.deps p1.2)
  let p3 := allocClos p2.1 (.fiClear p2.2 own)
  ⟨p3.1, .okO value (some p3.2)⟩

/-- The kind dispatch of instantiateAndWire: a struct value (or a pointer
or interface whose element is a struct) is wired field by field; the dry
run placeholder of a pointer kind is nil and is not dereferenced. -/
def structIdOf (env : Env) : Val → Option Nat
  | .prim (.atom n) _ =>
    match env.kindA n with
    | .kstruct => some n
    | .kptrStruct => some n
    | .kother => none
  | .zeroV (.atom n) =>
    match env.kindA n with
    | .kstruct => some n
    | _ => none
  | _ => none

/-- Allocate the composed closure of instantiateAndWire over the producer
cleanup and the field-wiring cleanup. -/
def finishIaw (s : St) (v : Val) (c1 c2 : Option Nat) : Res :=
  let p1 := allocO s c1
  let p2 := allocO p1.1 c2
  let p3 := allocClos p2.1 (.iawC p1.2 p2.2)
  ⟨p3.1, .okO v (some p3.2)⟩

/-- The cleanup closure returned by wireFields without an AfterWirer: the
cleans cell and the cleanDeps closure over it. -/
def mkDepsClean (s : St) (cls : List Nat) : St × Nat :=
  let p1 := allocL s cls
  let p2 := allocClos p1.1 (.deps p1.2)
  (p2.1, p2.2)

/-- The composed cleanup of wireFields for an AfterWirer: the own-cleanup
cell, the cleanDeps closure and the composed closure.  Returns the state,
the composed closure id and the cleanDeps closure id. -/
def mkAwClean (s : St) (cls : List Nat) (own : Option Nat) : St × Nat × Nat :=
  let p4 := allocO s own
  let p5 := mkDepsClean p4.1 cls
  let p7 := allocClos p5.1 (.awClear p5.2 p4.2)
  (p7.1, p7.2, p5.2)

/-- One step of the resolution engine; rec is the engine at the next lower
fuel.  Each branch mirrors the correspondingly named function of the
source (part_001, identical to part_002 up to the per-call transient flag
which part_002 drops). -/
def engineStep (env : Env) (rc : Nat) (rec : St → Req → Res) (s : St) :
    Req → Res
  | .byName nm tr dry =>
    match lookupStr s.named nm with
    | none => ⟨s, .errO (.notFoundName nm) none⟩
    | some i => rec s (.getInj i tr dry)
  | .byType t tr dry =>
    match t with
    | .ifaceT m =>
      match ifaceMatches env s (.ifaceT m) with
      | [p] => rec s (.getInj p.2 tr dry)
      | [] => ⟨s, .errO (.notFoundIface (.ifaceT m)) none⟩
      | _ => ⟨s, .errO (.multipleFound (.ifaceT m)) none⟩
    | _ =>
      match lookupTy s.typed t with
      | none => ⟨s, .errO (.notFoundType t) none⟩
      | some i => rec s (.getInj i tr dry)
  | .getInj i tr dry =>
    match s.injAt i with
    | none => ⟨s, .errO .missingInjector none⟩
    | some inj =>
      if inj.transientF || tr || dry then rec s (.iaw i dry)
      else
        match inj.inst with
        | some v => ⟨s, .okO v inj.clean⟩
        | none =>
          match rec s (.iaw i dry) with
          | ⟨s1, .errO e _⟩ => ⟨s1, .errO e none⟩
          | ⟨s1, .okO v c⟩ =>
            let s2 := setInst s1 i (some v)
            match c with
            | none => ⟨s2, .okO v ((s2.injAt i).bind Injector.clean)⟩
            | some cid =>
              let p3 := allocO s2 (some cid)
              let p4 := allocClos p3.1 (.singWrap p3.2 i)
              ⟨setCleanF p4.1 i (some p4.2), .okO v (some p4.2)⟩
  | .iaw i dry =>
    match s.injAt i with
    | none => ⟨s, .errO .missingInjector none⟩
    | some inj =>
      match
        (match inj.prov with
         | .valueP v => (⟨s, .okO v none⟩ : Res)
         | .funcP f => rec s (.fi f dry)) with
      | ⟨s1, .errO e _⟩ => ⟨s1, .errO e none⟩
      | ⟨s1, .okO v c1⟩ =>
        match structIdOf env v with
        | none => finishIaw s1 v c1 none
        | some sid =>
          match rec s1 (.wf sid dry) with
          | ⟨s2, .errO e _⟩ => ⟨s2, .errO e none⟩
          | ⟨s2, .okO _ c2⟩ => finishIaw s2 v c1 c2
  | .fi f dry =>
    match argsLoop (fun s' nm => rec s' (.byName nm false dry))
        (fun s' t => rec s' (.byType t false dry)) env s f.ins [] [] with
    | ⟨s1, cls, .lerr e⟩ => ⟨runCleanList rc s1 cls, .errO e none⟩
    | ⟨s1, cls, .lok argv⟩ =>
      if dry then
        match f.outs with
        | [] => ⟨s1, .okO .vnil none⟩
        | t :: _ => ⟨s1, .okO (.zeroV t) none⟩
      else
        match callFn s1 f argv with
        | (s2, []) => mkFiClear s2 cls none .vnil
        | (s2, [r0]) => mkFiClear s2 cls none (dynVal r0)
        | (s2, r0 :: r1 :: more) =>
          match (r1 :: more).getLastD (.derr none) with
          | .derr (some e) => ⟨runCleanList rc s2 cls, .errO (.userErr e) none⟩
          | _ =>
            match r1 with
            | .dclean copt => mkFiClear s2 cls copt (dynVal r0)
            | _ => mkFiClear s2 cls none (dynVal r0)
  | .wf sid dry =>
    match wfLoop (fun s' nm tr => rec s' (.byName nm tr dry))
        (fun s' t tr => rec s' (.byType t tr dry)) s (env.fieldsA sid) [] with
    | ⟨s1, cls, .lerr e⟩ => ⟨runCleanList rc s1 cls, .errO e none⟩
    | ⟨s1, cls, .lok _⟩ =>
      match env.afterWA sid with
      | none =>
        let p := mkDepsClean s1 cls
        ⟨p.1, .okO .vnil (some p.2)⟩
      | some aw =>
        let s2 := { s1 with awCalls := s1.awCalls ++ [aw.awTag] }
        let p0 : St × Option Nat :=
          match aw.retClean with
          | none => (s2, (none : Option Nat))
          | some t =>
            let q := allocClos s2 (.base t)
            (q.1, some q.2)
        let pa := mkAwClean p0.1 cls p0.2
        match aw.awErr with
        | some e => ⟨runClean rc pa.1 pa.2.2, .errO (.userErr e) (some pa.2.1)⟩
        | none => ⟨pa.1, .okO .vnil (some pa.2.1)⟩

/-- The fuel-bounded resolution engine. -/
def engine (env : Env) : Nat → St → Req → Res
  | 0, s, _ => ⟨s, .errO .outOfFuel none⟩
  | fuel + 1, s, req => engineStep env fuel (engine env fuel) s req

/-- Resolve, part_001: lookup by name. -/
def resolve (env : Env) (fuel : Nat) (s : St) (nm : String) : Res :=
  engine env fuel s (.byName nm false false)

/-- GetByType, part_001: lookup by (possibly interface) type. -/
def getByType (env : Env) (fuel : Nat) (s : St) (t : Ty) : Res :=
  engine env fuel s (.byType t false false)

/-- A wire target: a pointer to a struct, a function, or anything else
(rejected). -/
inductive Tgt where
  | ptrT (sid : Nat)
  | fnT (f : FnVal)
  | badT

/-- validateWireFunc.  The single-result check of the source is the Go
type assertion t.Out(0).(error), i.e. checking whether the dynamic type of
the reflect.Type value itself (reflect rtype) implements the error
interface, not whether the declared result type is error. -/
def rtypeMethodSet : List String :=
  ["Align", "FieldAlign", "Method", "MethodByName", "NumMethod", "Name",
   "PkgPath", "Size", "String", "Kind", "Implements", "AssignableTo",
   "ConvertibleTo", "Comparable", "Bits", "ChanDir", "IsVariadic", "Elem",
   "Field", "FieldByIndex", "FieldByName", "FieldByNameFunc", "In", "Key",
   "Len", "NumField", "NumIn", "NumOut", "Out"]

def typeAssertErrOnReflectType : Bool := rtypeMethodSet.contains "Error"

def validateWireFunc (f : FnVal) : Option Err :=
  if f.ins.length = 0 then some (.invalidWireFn 0)
  else if 1 < f.outs.length then some (.invalidWireFn 1)
  else if f.outs.length = 1 then
    if typeAssertErrOnReflectType then none else some (.invalidWireFn 2)
  else none

/-- wire, part_001: reject bad targets, validate and inject a function
target (discarding the composed cleanup of funcInjection), or wire the
fields of a pointer target (returning both the cleanup and the error of
wireFields). -/
def wire (env : Env) (fuel : Nat) (s : St) (tgt : Tgt) (dry : Bool) :
    St × Option Nat × Option Err :=
  match tgt with
  | .badT => (s, none, some .invalidWireTarget)
  | .fnT f =>
    match validateWireFunc f with
    | some e => (s, none, some e)
    | none =>
      match engine env fuel s (.fi f dry) with
      | ⟨s1, .okO _ _⟩ => (s1, none, none)
      | ⟨s1, .errO e _⟩ => (s1, none, some e)
  | .ptrT sid =>
    match engine env fuel s (.wf sid dry) with
    | ⟨s1, .okO _ c⟩ => (s1, c, none)
    | ⟨s1, .errO e c⟩ => (s1, c, some e)

/-- DryRun, part_001: wire with the dry flag set. -/
def dryRun (env : Env) (fuel : Nat) (s : St) (tgt : Tgt) :
    St × Option Nat × Option Err :=
  wire env fuel s tgt true

/-- Outcome of a registration: success, error, or a Go panic. -/
inductive RegOut where
  | okR (s : St)
  | errR (e : Err)
  | panicked

/-- An argument passed to a registration call: a plain value or a factory
function. -/
inductive ProvArg where
  | valueArg (v : Val)
  | funcArg (f : FnVal)

/-- reflect AssignableTo against the error interface type, for declared
result types (part_001 validateProviderFunc). -/
def assignableToError (t : Ty) : Bool := t == Ty.errT

/-- reflect AssignableTo against the Clean type. -/
def assignableToClean (t : Ty) : Bool := t == Ty.cleanT

/-- validateProviderFunc, part_001.  The arity guard of the source is
literally NumOut() < 1 AND NumOut() > 3, which no arity satisfies. -/
def validateProviderFunc (f : FnVal) : Option Err :=
  if f.outs.length < 1 ∧ 3 < f.outs.length then some (.invalidProviderFn 0)
  else if f.outs.length = 3 then
    if ¬ assignableToError (f.outs.getD 2 .errT) then some (.invalidProviderFn 1)
    else if ¬ assignableToClean (f.outs.getD 1 .errT) then
      some (.invalidProviderFn 2)
    else none
  else if f.outs.length = 2 then
    if ¬ assignableToClean (f.outs.getD 1 .errT) ∧
        ¬ assignableToError (f.outs.getD 1 .errT) then
      some (.invalidProviderFn 3)
    else none
  else none

def Val.valTy : Val → Ty
  | .prim t _ => t
  | .zeroV t => t
  | _ => .atom 0

/-- Insertion into the name-keyed or type-keyed registry with the
duplicate checks of namedProvider. -/
def registerInj (s : St) (name : String) (inj : Injector) (tn : Ty) : RegOut :=
  if name = "" then
    match lookupTy s.typed tn with
    | some _ => .errR .alreadyExists
    | none =>
      .okR { s with injs := s.injs ++ [inj],
                    typed := s.typed ++ [(tn, s.injs.length)] }
  else
    match lookupStr s.named name with
    | some _ => .errR .alreadyExists
    | none =>
      .okR { s with injs := s.injs ++ [inj],
                    named := s.named ++ [(name, s.injs.length)] }

/-- namedProvider, part_001: a function argument is validated and, when
validation passes, its produced type is t.Out(0), which panics for a
function with no results; a value argument uses its own type. -/
def namedProvider (s : St) (name : String) (p : ProvArg) (transient : Bool) :
    RegOut :=
  match p with
  | .funcArg f =>
    match validateProviderFunc f with
    | some e => .errR e
    | none =>
      match f.outs.head? with
      | none => .panicked
      | some tn => registerInj s name ⟨.funcP f, none, none, transient, tn⟩ tn
  | .valueArg v =>
    registerInj s name ⟨.valueP v, none, none, transient, v.valTy⟩ v.valTy

/-- NamedProvider, part_001: rejects the empty name, then registers
non-transient. -/
def NamedProvider (s : St) (name : String) (p : ProvArg) : RegOut :=
  if name = "" then .errR .emptyName else namedProvider s name p false

/-- The empty container (New). -/
def newSt : St := ⟨[], [], [], [], [], [], 0, [], [], []⟩

/-! ## List access lemmas -/

theorem get?_set_self (l : List α) (i : Nat) (a : α) :
    (l.set i a).get? i = (l.get? i).map (fun _ => a) := by
  simp [List.get?_eq_getElem?, List.getElem?_set_self']
  rfl

theorem get?_set_other (l : List α) {i j : Nat} (h : i ≠ j) (a : α) :
    (l.set i a).get? j = l.get? j := by
  simp [List.get?_eq_getElem?, List.getElem?_set_ne h]

theorem listModify_get?_self (l : List α) (i : Nat) (g : α → α) :
    (listModify l i g).get? i = (l.get? i).map g := by
  unfold listModify
  cases h : l.get? i with
  | none => simp only [h, Option.map_none']
  | some a =>
    simp only [h, Option.map_some']
    rw [get?_set_self, h]
    rfl

theorem listModify_get?_other (l : List α) {i j : Nat} (h : i ≠ j) (g : α → α) :
    (listModify l i g).get? j = l.get? j := by
  unfold listModify
  cases hx : l.get? i with
  | none => rfl
  | some a => exact get?_set_other l h (g a)

theorem listModify_length (l : List α) (i : Nat) (g : α → α) :
    (listModify l i g).length = l.length := by
  unfold listModify
  cases l.get? i <;> simp

/-! ## Frame properties of runClean

Running a cleanup closure never touches the registries, the call logs, the
counter or the closure heap; it can only erase cell contents and erase
injector cache fields. -/

/-- Injector evolution under cleanup: metadata is fixed, cache fields can
only be erased. -/
structure InjErase (a b : Injector) : Prop where
  prov : b.prov = a.prov
  tr : b.transientF = a.transientF
  typ : b.typ = a.typ
  inst : b.inst = a.inst ∨ b.inst = none
  clean : b.clean = a.clean ∨ b.clean = none

def OptRel (r : α → α → Prop) : Option α → Option α → Prop
  | none, none => True
  | some a, some b => r a b
  | _, _ => False

theorem injErase_refl (a : Injector) : InjErase a a :=
  ⟨rfl, rfl, rfl, Or.inl rfl, Or.inl rfl⟩

theorem injErase_trans {a b c : Injector} (h1 : InjErase a b)
    (h2 : InjErase b c) : InjErase a c := by
  refine ⟨h2.prov.trans h1.prov, h2.tr.trans h1.tr, h2.typ.trans h1.typ, ?_, ?_⟩
  · rcases h2.inst with h | h
    · rw [h]; exact h1.inst
    · exact Or.inr h
  · rcases h2.clean with h | h
    · rw [h]; exact h1.clean
    · exact Or.inr h

theorem optRel_refl (r : α → α → Prop) (hr : ∀ a, r a a) :
    ∀ x : Option α, OptRel r x x := by
  intro x
  cases x with
  | none => exact trivial
  | some a => exact hr a

theorem optRel_trans (r : α → α → Prop)
    (hr : ∀ a b c, r a b → r b c → r a c) :
    ∀ {x y z : Option α}, OptRel r x y → OptRel r y z → OptRel r x z := by
  intro x y z h1 h2
  cases x <;> cases y <;> cases z <;>
    first
      | exact trivial
      | exact h1.elim
      | exact h2.elim
      | exact hr _ _ _ h1 h2

/-- The frame relation of runClean. -/
structure RCFrame (s s' : St) : Prop where
  named : s'.named = s.named
  typed : s'.typed = s.typed
  calls : s'.calls = s.calls
  aw : s'.awCalls = s.awCalls
  ctr : s'.valCtr = s.valCtr
  clos : s'.clos = s.clos
  injs : ∀ i, OptRel InjErase (s.injAt i) (s'.injAt i)
  oLen : s'.oCells.length = s.oCells.length
  oC : ∀ i, s'.oCellD i = s.oCellD i ∨ s'.oCellD i = none
  lLen : s'.lCells.length = s.lCells.length
  lC : ∀ i, s'.lCellD i = s.lCellD i ∨ s'.lCellD i = []

theorem rcf_refl (s : St) : RCFrame s s := by
  exact ⟨rfl, rfl, rfl, rfl, rfl, rfl,
    fun i => optRel_refl _ injErase_refl _, rfl, fun i => Or.inl rfl, rfl,
    fun i => Or.inl rfl⟩

theorem rcf_trans {s1 s2 s3 : St} (h1 : RCFrame s1 s2)
    (h2 : RCFrame s2 s3) : RCFrame s1 s3 := by
  refine ⟨h2.named.trans h1.named, h2.typed.trans h1.typed,
    h2.calls.trans h1.calls, h2.aw.trans h1.aw, h2.ctr.trans h1.ctr,
    h2.clos.trans h1.clos, ?_, h2.oLen.trans h1.oLen, ?_,
    h2.lLen.trans h1.lLen, ?_⟩
  · intro i
    exact optRel_trans InjErase (fun _ _ _ ha hb => injErase_trans ha hb)
      (h1.injs i) (h2.injs i)
  · intro i
    rcases h2.oC i with h | h
    · rw [h]; exact h1.oC i
    · exact Or.inr h
  · intro i
    rcases h2.lC i with h | h
    · rw [h]; exact h1.lC i
    · exact Or.inr h

theorem oCellD_set (s : St) (i : Nat) (v : Option Nat) (j : Nat) :
    (setOCell s i v).oCellD j =
      if i = j then (if j < s.oCells.length then v else none)
      else s.oCellD j := by
  unfold setOCell St.oCellD
  by_cases h : i = j
  · subst h
    simp only [if_pos rfl]
    rw [get?_set_self]
    by_cases hl : i < s.oCells.length
    · rw [if_pos hl]
      rcases List.get?_eq_get hl with h2
      rw [h2]; rfl
    · rw [if_neg hl]
      rw [List.get?_eq_none.2 (Nat.le_of_not_lt hl)]
      rfl
  · simp only [if_neg h]
    rw [get?_set_other _ h]

theorem lCellD_set (s : St) (i : Nat) (v : List Nat) (j : Nat) :
    (setLCell s i v).lCellD j =
      if i = j then (if j < s.lCells.length then v else [])
      else s.lCellD j := by
  unfold setLCell St.lCellD
  by_cases h : i = j
  · subst h
    simp only [if_pos rfl]
    rw [get?_set_self]
    by_cases hl : i < s.lCells.length
    · rw [if_pos hl]
      rcases List.get?_eq_get hl with h2
      rw [h2]; rfl
    · rw [if_neg hl]
      rw [List.get?_eq_none.2 (Nat.le_of_not_lt hl)]
      rfl
  · simp only [if_neg h]
    rw [get?_set_other _ h]

theorem rcf_setOCell_none (s : St) (i : Nat) : RCFrame s (setOCell s i none) := by
  refine ⟨rfl, rfl, rfl, rfl, rfl, rfl,
    fun j => optRel_refl _ injErase_refl _, by simp [setOCell], ?_, rfl,
    fun j => Or.inl rfl⟩
  intro j
  rw [oCellD_set]
  by_cases h : i = j
  · subst h; by_cases hl : i < s.oCells.length <;> simp [hl]
  · simp [h]

theorem rcf_setLCell_nil (s : St) (i : Nat) : RCFrame s (setLCell s i []) := by
  refine ⟨rfl, rfl, rfl, rfl, rfl, rfl,
    fun j => optRel_refl _ injErase_refl _, rfl, fun j => Or.inl rfl,
    by simp [setLCell], ?_⟩
  intro j
  rw [lCellD_set]
  by_cases h : i = j
  · subst h; by_cases hl : i < s.lCells.length <;> simp [hl]
  · simp [h]

theorem rcf_setInst_none (s : St) (i : Nat) : RCFrame s (setInst s i none) := by
  refine ⟨rfl, rfl, rfl, rfl, rfl, rfl, ?_, rfl, fun j => Or.inl rfl, rfl,
    fun j => Or.inl rfl⟩
  intro j
  unfold setInst St.injAt
  by_cases h : i = j
  · subst h
    simp only
    rw [listModify_get?_self]
    cases hx : s.injs.get? i with
    | none => exact trivial
    | some a => exact ⟨rfl, rfl, rfl, Or.inr rfl, Or.inl rfl⟩
  · simp only
    rw [listModify_get?_other _ h]
    cases hx : s.injs.get? j with
    | none => exact trivial
    | some a => exact injErase_refl a

theorem rcf_setCleanF_none (s : St) (i : Nat) : RCFrame s (setCleanF s i none) := by
  refine ⟨rfl, rfl, rfl, rfl, rfl, rfl, ?_, rfl, fun j => Or.inl rfl, rfl,
    fun j => Or.inl rfl⟩
  intro j
  unfold setCleanF St.injAt
  by_cases h : i = j
  · subst h
    simp only
    rw [listModify_get?_self]
    cases hx : s.injs.get? i with
    | none => exact trivial
    | some a => exact ⟨rfl, rfl, rfl, Or.inl rfl, Or.inr rfl⟩
  · simp only
    rw [listModify_get?_other _ h]
    cases hx : s.injs.get? j with
    | none => exact trivial
    | some a => exact injErase_refl a

theorem rcf_log (s : St) (t : Nat) : RCFrame s { s with log := s.log ++ [t] } :=
  ⟨rfl, rfl, rfl, rfl, rfl, rfl, fun i => optRel_refl _ injErase_refl _, rfl,
    fun i => Or.inl rfl, rfl, fun i => Or.inl rfl⟩

theorem runClean_frame : ∀ (fuel : Nat) (c : Nat) (s : St),
    RCFrame s (runClean fuel s c) := by
  intro fuel
  induction fuel with
  | zero => intro c s; exact rcf_refl s
  | succ fuel ih =>
    have foldl_frame : ∀ (l : List Nat) (s : St),
        RCFrame s (l.foldl (fun acc x => runClean fuel acc x) s) := by
      intro l
      induction l with
      | nil => intro s; exact rcf_refl s
      | cons x xs ihx =>
        intro s
        exact rcf_trans (ih x s) (ihx (runClean fuel s x))
    have consume_frame : ∀ (i : Nat) (s : St),
        RCFrame s (consumeO (runClean fuel) s i) := by
      intro i s
      unfold consumeO
      cases s.oCellD i with
      | none => exact rcf_refl s
      | some k => exact rcf_trans (ih k s) (rcf_setOCell_none _ i)
    intro c s
    show RCFrame s (runClean (fuel + 1) s c)
    unfold runClean
    cases hc : s.closAt c with
    | none => exact rcf_refl s
    | some cl =>
      cases cl with
      | base t => exact rcf_log s t
      | deps d =>
        exact rcf_trans (foldl_frame _ s) (rcf_setLCell_nil _ d)
      | fiClear dc own =>
        cases own with
        | none => exact ih dc s
        | some k => exact rcf_trans (ih dc s) (ih k _)
      | iawC a b =>
        exact rcf_trans (consume_frame a s) (consume_frame b _)
      | singWrap cc i =>
        exact rcf_trans (consume_frame cc s)
          (rcf_trans (rcf_setInst_none _ i) (rcf_setCleanF_none _ i))
      | awClear dc oc =>
        exact rcf_trans (ih dc s) (consume_frame oc _)

theorem runCleanList_frame (fuel : Nat) (l : List Nat) (s : St) :
    RCFrame s (runCleanList fuel s l) := by
  unfold runCleanList
  induction l generalizing s with
  | nil => exact rcf_refl s
  | cons x xs ih =>
    exact rcf_trans (runClean_frame fuel x s) (ih (runClean fuel s x))

/-! ## Consumption: after one invocation the captured cleanup variables of
a composed closure are nil, so a second invocation runs no callback. -/

theorem consumeO_frame (run1 : St → Nat → St)
    (hrun : ∀ s c, RCFrame s (run1 s c)) (s : St) (i : Nat) :
    RCFrame s (consumeO run1 s i) := by
  unfold consumeO
  cases s.oCellD i with
  | none => exact rcf_refl s
  | some k => exact rcf_trans (hrun s k) (rcf_setOCell_none _ i)

theorem consumeO_none (run1 : St → Nat → St) {s : St} {i : Nat}
    (h : s.oCellD i = none) : consumeO run1 s i = s := by
  unfold consumeO
  rw [h]

theorem oCellD_lt {s : St} {i k : Nat} (h : s.oCellD i = some k) :
    i < s.oCells.length := by
  by_contra hc
  rw [St.oCellD, List.get?_eq_none.2 (Nat.le_of_not_lt hc)] at h
  exact Option.noConfusion h

theorem consumeO_post (run1 : St → Nat → St)
    (hrun : ∀ s c, RCFrame s (run1 s c)) (s : St) (i : Nat) :
    (consumeO run1 s i).oCellD i = none := by
  unfold consumeO
  cases h : s.oCellD i with
  | none => exact h
  | some k =>
    show (((run1 s k).oCells.set i none).get? i).getD none = none
    rw [get?_set_self]
    cases hx : (run1 s k).oCells.get? i <;> simp [hx]

theorem frame_none_o {s s' : St} (h : RCFrame s s') {i : Nat}
    (hn : s.oCellD i = none) : s'.oCellD i = none := by
  rcases h.oC i with hx | hx
  · rw [hx, hn]
  · exact hx

theorem frame_nil_l {s s' : St} (h : RCFrame s s') {i : Nat}
    (hn : s.lCellD i = []) : s'.lCellD i = [] := by
  rcases h.lC i with hx | hx
  · rw [hx, hn]
  · exact hx

theorem runClean_closAt (fuel : Nat) (c : Nat) (s : St) (x : Nat) :
    (runClean fuel s c).closAt x = s.closAt x := by
  show (runClean fuel s c).clos.get? x = s.clos.get? x
  rw [(runClean_frame fuel c s).clos]

theorem lCellD_setLCell_self (s : St) (d : Nat) :
    (setLCell s d []).lCellD d = [] := by
  rw [lCellD_set]
  by_cases h : d < s.lCells.length <;> simp [h]

/-- The one-step unfolding of runClean. -/
theorem runClean_succ (fuel : Nat) (s : St) (c : Nat) :
    runClean (fuel + 1) s c =
      match s.closAt c with
      | none => s
      | some (.base t) => { s with log := s.log ++ [t] }
      | some (.deps d) =>
        setLCell ((s.lCellD d).foldl (fun acc x => runClean fuel acc x) s) d []
      | some (.fiClear dc own) =>
        (match own with
         | none => runClean fuel s dc
         | some k => runClean fuel (runClean fuel s dc) k)
      | some (.iawC a b) =>
        consumeO (runClean fuel) (consumeO (runClean fuel) s a) b
      | some (.singWrap cc i) =>
        setCleanF (setInst (consumeO (runClean fuel) s cc) i none) i none
      | some (.awClear dc oc) =>
        consumeO (runClean fuel) (runClean fuel s dc) oc := rfl

theorem runClean_deps_post {s : St} {c d : Nat} (fuel : Nat)
    (hc : s.closAt c = some (.deps d)) :
    (runClean (fuel + 1) s c).lCellD d = [] := by
  simp only [runClean_succ, hc]
  exact lCellD_setLCell_self _ d

theorem runClean_singWrap_post {s : St} {c cc i : Nat} (fuel : Nat)
    (hc : s.closAt c = some (.singWrap cc i)) :
    (runClean (fuel + 1) s c).oCellD cc = none ∧
    (∀ inj, (runClean (fuel + 1) s c).injAt i = some inj →
      inj.inst = none ∧ inj.clean = none) := by
  simp only [runClean_succ, hc]
  constructor
  · show ((consumeO (runClean fuel) s cc).oCells.get? cc).getD none = none
    exact consumeO_post _ (fun s c => runClean_frame fuel c s) s cc
  · intro inj hinj
    rw [show (setCleanF (setInst (consumeO (runClean fuel) s cc) i none) i none).injAt i
        = ((setInst (consumeO (runClean fuel) s cc) i none).injAt i).map
            (fun inj => { inj with clean := none }) from
      listModify_get?_self _ i _] at hinj
    rw [show (setInst (consumeO (runClean fuel) s cc) i none).injAt i
        = ((consumeO (runClean fuel) s cc).injAt i).map
            (fun inj => { inj with inst := none }) from
      listModify_get?_self _ i _] at hinj
    cases hx : (consumeO (runClean fuel) s cc).injAt i with
    | none => rw [hx] at hinj; exact Option.noConfusion hinj
    | some a =>
      rw [hx] at hinj
      simp only [Option.map_some'] at hinj
      cases hinj
      exact ⟨rfl, rfl⟩

theorem runClean_iawC_post {s : St} {c a b : Nat} (fuel : Nat)
    (hc : s.closAt c = some (.iawC a b)) :
    (runClean (fuel + 1) s c).oCellD a = none ∧
    (runClean (fuel + 1) s c).oCellD b = none := by
  simp only [runClean_succ, hc]
  have hrun : ∀ (s : St) (c : Nat), RCFrame s (runClean fuel s c) :=
    fun s c => runClean_frame fuel c s
  exact ⟨frame_none_o (consumeO_frame _ hrun _ b) (consumeO_post _ hrun s a),
    consumeO_post _ hrun _ b⟩

theorem runClean_awClear_post {s : St} {c dc oc : Nat} (fuel : Nat)
    (hc : s.closAt c = some (.awClear dc oc)) :
    (runClean (fuel + 1) s c).oCellD oc = none := by
  simp only [runClean_succ, hc]
  exact consumeO_post _ (fun s c => runClean_frame fuel c s) _ oc

/-- The shapes of composed cleanups that the API hands to callers. -/
def HandedClos (s : St) (c : Nat) : Prop :=
  (∃ cc i, s.closAt c = some (.singWrap cc i)) ∨
  (∃ a b, s.closAt c = some (.iawC a b)) ∨
  (∃ d, s.closAt c = some (.deps d)) ∨
  (∃ dc oc d, s.closAt c = some (.awClear dc oc) ∧
    s.closAt dc = some (.deps d))

theorem consumeO_log_none (run1 : St → Nat → St) {s : St} {i : Nat}
    (h : s.oCellD i = none) : (consumeO run1 s i).log = s.log := by
  rw [consumeO_none run1 h]

/-- A deps closure over an exhausted cell adds nothing to the log and
leaves every cell as it is. -/
theorem runClean_deps_empty {s : St} {c d : Nat} (fuel : Nat)
    (hc : s.closAt c = some (.deps d)) (hd : s.lCellD d = []) :
    (runClean fuel s c).log = s.log ∧
    (∀ i, (runClean fuel s c).oCellD i = s.oCellD i) := by
  cases fuel with
  | zero => exact ⟨rfl, fun i => rfl⟩
  | succ fuel =>
    simp only [runClean_succ, hc, hd]
    exact ⟨rfl, fun i => rfl⟩

/-- Invoking a composed cleanup a second time runs no callback: the log is
unchanged by the repeat invocation. -/
theorem handed_second_run (fuel : Nat) (s : St) (c : Nat)
    (h : HandedClos s c) :
    (runClean fuel (runClean fuel s c) c).log = (runClean fuel s c).log := by
  cases fuel with
  | zero => rfl
  | succ fuel =>
    rcases h with ⟨cc, i, hc⟩ | ⟨a, b, hc⟩ | ⟨d, hc⟩ | ⟨dc, oc, d, hc, hdc⟩
    · have hclos2 : (runClean (fuel + 1) s c).closAt c = some (.singWrap cc i) := by
        rw [runClean_closAt]; exact hc
      have hpost := (runClean_singWrap_post fuel hc).1
      generalize hs2 : runClean (fuel + 1) s c = s2 at hclos2 hpost ⊢
      have hunf : runClean (fuel + 1) s2 c =
          setCleanF (setInst (consumeO (runClean fuel) s2 cc) i none) i none := by
        simp only [runClean_succ, hclos2]
      rw [hunf, consumeO_none _ hpost]
      rfl
    · have hclos2 : (runClean (fuel + 1) s c).closAt c = some (.iawC a b) := by
        rw [runClean_closAt]; exact hc
      have hpost := runClean_iawC_post fuel hc
      generalize hs2 : runClean (fuel + 1) s c = s2 at hclos2 hpost ⊢
      have hunf : runClean (fuel + 1) s2 c =
          consumeO (runClean fuel) (consumeO (runClean fuel) s2 a) b := by
        simp only [runClean_succ, hclos2]
      rw [hunf, consumeO_none _ hpost.1, consumeO_none _ hpost.2]
    · have hclos2 : (runClean (fuel + 1) s c).closAt c = some (.deps d) := by
        rw [runClean_closAt]; exact hc
      have hpost := runClean_deps_post fuel hc
      generalize hs2 : runClean (fuel + 1) s c = s2 at hclos2 hpost ⊢
      have hunf : runClean (fuel + 1) s2 c =
          setLCell ((s2.lCellD d).foldl (fun acc x => runClean fuel acc x) s2)
            d [] := by
        simp only [runClean_succ, hclos2]
      rw [hunf, hpost]
      rfl
    · have hclos2 : (runClean (fuel + 1) s c).closAt c = some (.awClear dc oc) := by
        rw [runClean_closAt]; exact hc
      have hdc2 : (runClean (fuel + 1) s c).closAt dc = some (.deps d) := by
        rw [runClean_closAt]; exact hdc
      have hoc := runClean_awClear_post fuel hc
      generalize hs2 : runClean (fuel + 1) s c = s2 at hclos2 hdc2 hoc ⊢
      have hunf : runClean (fuel + 1) s2 c =
          consumeO (runClean fuel) (runClean fuel s2 dc) oc := by
        simp only [runClean_succ, hclos2]
      have h3 : (runClean fuel s2 dc).log = s2.log ∧
          (runClean fuel s2 dc).oCellD oc = none := by
        cases fuel with
        | zero => exact ⟨rfl, hoc⟩
        | succ g =>
          have hdl : s2.lCellD d = [] := by
            have hunf1 : runClean (g + 1 + 1) s c =
                consumeO (runClean (g + 1)) (runClean (g + 1) s dc) oc := by
              simp only [runClean_succ, hc]
            rw [← hs2, hunf1]
            exact frame_nil_l
              (consumeO_frame _ (fun s c => runClean_frame (g + 1) c s) _ oc)
              (runClean_deps_post g hdc)
          have hde := runClean_deps_empty (g + 1) hdc2 hdl
          exact ⟨hde.1, by rw [hde.2 oc]; exact hoc⟩
      rw [hunf, consumeO_none _ h3.2, h3.1]

/-! ## Evolution of the state under the engine

An engine call can extend the closure heap and the cells, erase old cells
(rollback), and change injector cache fields; it never changes the
registries nor the identity (provider, transient flag, produced type) of a
registered injector. -/

def injMeta (inj : Injector) : Prov × Bool × Ty :=
  (inj.prov, inj.transientF, inj.typ)

structure Evolves (s s' : St) : Prop where
  named : s'.named = s.named
  typed : s'.typed = s.typed
  injsMeta : ∀ i, (s'.injAt i).map injMeta = (s.injAt i).map injMeta
  closPre : ∃ l, s'.clos = s.clos ++ l
  oLen : s.oCells.length ≤ s'.oCells.length
  oC : ∀ i, i < s.oCells.length → s'.oCellD i = s.oCellD i ∨ s'.oCellD i = none
  lLen : s.lCells.length ≤ s'.lCells.length
  lC : ∀ i, i < s.lCells.length → s'.lCellD i = s.lCellD i ∨ s'.lCellD i = []

theorem evolves_refl (s : St) : Evolves s s :=
  ⟨rfl, rfl, fun _ => rfl, ⟨[], (List.append_nil _).symm⟩, Nat.le_refl _,
    fun _ _ => Or.inl rfl, Nat.le_refl _, fun _ _ => Or.inl rfl⟩

theorem evolves_trans {s1 s2 s3 : St} (h1 : Evolves s1 s2)
    (h2 : Evolves s2 s3) : Evolves s1 s3 := by
  refine ⟨h2.named.trans h1.named, h2.typed.trans h1.typed,
    fun i => (h2.injsMeta i).trans (h1.injsMeta i), ?_,
    Nat.le_trans h1.oLen h2.oLen, ?_, Nat.le_trans h1.lLen h2.lLen, ?_⟩
  · obtain ⟨la, ha⟩ := h1.closPre
    obtain ⟨lb, hb⟩ := h2.closPre
    exact ⟨la ++ lb, by rw [hb, ha, List.append_assoc]⟩
  · intro i hi
    rcases h2.oC i (Nat.lt_of_lt_of_le hi h1.oLen) with h | h
    · rw [h]; exact h1.oC i hi
    · exact Or.inr h
  · intro i hi
    rcases h2.lC i (Nat.lt_of_lt_of_le hi h1.lLen) with h | h
    · rw [h]; exact h1.lC i hi
    · exact Or.inr h

theorem rcframe_evolves {s s' : St} (h : RCFrame s s') : Evolves s s' := by
  refine ⟨h.named, h.typed, ?_, ⟨[], by rw [h.clos, List.append_nil]⟩,
    Nat.le_of_eq h.oLen.symm, fun i _ => h.oC i,
    Nat.le_of_eq h.lLen.symm, fun i _ => h.lC i⟩
  intro i
  have := h.injs i
  cases hx : s.injAt i with
  | none =>
    rw [hx] at this
    cases hy : s'.injAt i with
    | none => rfl
    | some b => rw [hy] at this; exact this.elim
  | some a =>
    rw [hx] at this
    cases hy : s'.injAt i with
    | none => rw [hy] at this; exact this.elim
    | some b =>
      rw [hy] at this
      simp only [Option.map_some']
      rw [show injMeta b = injMeta a from by
        unfold injMeta
        rw [this.prov, this.tr, this.typ]]

/-- Evolution for a state change that leaves the registries, the injector
list, the cells and the closure heap untouched. -/
theorem evolves_misc (s s' : St) (hinjs : s'.injs = s.injs)
    (hn : s'.named = s.named) (ht : s'.typed = s.typed)
    (ho : s'.oCells = s.oCells) (hl : s'.lCells = s.lCells)
    (hc : s'.clos = s.clos) : Evolves s s' := by
  refine ⟨hn, ht, ?_, ⟨[], by rw [hc, List.append_nil]⟩, ?_, ?_, ?_, ?_⟩
  · intro i; show (s'.injs.get? i).map _ = _; rw [hinjs]; rfl
  · rw [ho]
  · intro i _
    exact Or.inl (by show (s'.oCells.get? i).getD none = _; rw [ho]; rfl)
  · rw [hl]
  · intro i _
    exact Or.inl (by show (s'.lCells.get? i).getD [] = _; rw [hl]; rfl)

theorem evolves_allocO (s : St) (v : Option Nat) : Evolves s (allocO s v).1 := by
  refine ⟨rfl, rfl, fun i => rfl, ⟨[], by rw [List.append_nil]; rfl⟩,
    by simp [allocO], ?_, Nat.le_refl _, fun i _ => Or.inl rfl⟩
  intro i hi
  exact Or.inl (by
    show ((s.oCells ++ [v]).get? i).getD none = _
    rw [List.get?_append hi]
    rfl)

theorem evolves_allocL (s : St) (v : List Nat) : Evolves s (allocL s v).1 := by
  refine ⟨rfl, rfl, fun i => rfl, ⟨[], by rw [List.append_nil]; rfl⟩,
    Nat.le_refl _, fun i _ => Or.inl rfl, by simp [allocL], ?_⟩
  intro i hi
  exact Or.inl (by
    show ((s.lCells ++ [v]).get? i).getD [] = _
    rw [List.get?_append hi]
    rfl)

theorem evolves_allocClos (s : St) (c : Clos) :
    Evolves s (allocClos s c).1 :=
  ⟨rfl, rfl, fun i => rfl, ⟨[c], rfl⟩, Nat.le_refl _, fun i _ => Or.inl rfl,
    Nat.le_refl _, fun i _ => Or.inl rfl⟩

theorem evolves_setInst (s : St) (i : Nat) (v : Option Val) :
    Evolves s (setInst s i v) := by
  refine ⟨rfl, rfl, ?_, ⟨[], by rw [List.append_nil]; rfl⟩, Nat.le_refl _,
    fun j _ => Or.inl rfl, Nat.le_refl _, fun j _ => Or.inl rfl⟩
  intro j
  show ((listModify s.injs i _).get? j).map injMeta = _
  by_cases h : i = j
  · subst h
    rw [listModify_get?_self]
    show (Option.map (fun inj => { inj with inst := v }) (s.injs.get? i)).map
        injMeta = (s.injs.get? i).map injMeta
    cases s.injs.get? i <;> rfl
  · rw [listModify_get?_other _ h]
    rfl

theorem evolves_setCleanF (s : St) (i : Nat) (c : Option Nat) :
    Evolves s (setCleanF s i c) := by
  refine ⟨rfl, rfl, ?_, ⟨[], by rw [List.append_nil]; rfl⟩, Nat.le_refl _,
    fun j _ => Or.inl rfl, Nat.le_refl _, fun j _ => Or.inl rfl⟩
  intro j
  show ((listModify s.injs i _).get? j).map injMeta = _
  by_cases h : i = j
  · subst h
    rw [listModify_get?_self]
    show (Option.map (fun inj => { inj with clean := c }) (s.injs.get? i)).map
        injMeta = (s.injs.get? i).map injMeta
    cases s.injs.get? i <;> rfl
  · rw [listModify_get?_other _ h]
    rfl

theorem evolves_callOuts (f : FnVal) :
    ∀ (outs : List Ty) (s : St) (i : Nat), Evolves s (callOuts f s i outs).1 := by
  intro outs
  induction outs with
  | nil => intro s i; exact evolves_refl s
  | cons t rest ih =>
    intro s i
    show Evolves s (callOuts f s i (t :: rest)).1
    unfold callOuts
    by_cases h1 : (0 < i && t == Ty.cleanT) = true
    · rw [if_pos h1]
      by_cases h2 : f.cleanNil = true
      · rw [if_pos h2]
        exact ih s (i + 1)
      · rw [if_neg h2]
        show Evolves s (callOuts f (allocClos s (.base f.cleanTag)).1 (i + 1) rest).1
        exact evolves_trans (evolves_allocClos s (.base f.cleanTag))
          (ih (allocClos s (.base f.cleanTag)).1 (i + 1))
    · rw [if_neg h1]
      by_cases h2 : (0 < i && t == Ty.errT) = true
      · rw [if_pos h2]
        exact ih s (i + 1)
      · rw [if_neg h2]
        show Evolves s (callOuts f { s with valCtr := s.valCtr + 1 } (i + 1) rest).1
        exact evolves_trans
          (evolves_misc s { s with valCtr := s.valCtr + 1 } rfl rfl rfl rfl rfl rfl)
          (ih { s with valCtr := s.valCtr + 1 } (i + 1))

theorem evolves_callFn (s : St) (f : FnVal) (argv : List Val) :
    Evolves s (callFn s f argv).1 := by
  show Evolves s
    (callOuts f { s with calls := s.calls ++ [(f.tag, argv)] } 0 f.outs).1
  exact evolves_trans
    (evolves_misc s { s with calls := s.calls ++ [(f.tag, argv)] } rfl rfl rfl rfl
      rfl rfl)
    (evolves_callOuts f f.outs { s with calls := s.calls ++ [(f.tag, argv)] } 0)

theorem evolves_mkFiClear (s : St) (cls : List Nat) (own : Option Nat)
    (v : Val) : Evolves s (mkFiClear s cls own v).st := by
  unfold mkFiClear
  exact evolves_trans (evolves_allocL s cls)
    (evolves_trans (evolves_allocClos _ _) (evolves_allocClos _ _))

theorem evolves_finishIaw (s : St) (v : Val) (c1 c2 : Option Nat) :
    Evolves s (finishIaw s v c1 c2).st := by
  unfold finishIaw
  exact evolves_trans (evolves_allocO s c1)
    (evolves_trans (evolves_allocO _ c2) (evolves_allocClos _ _))

theorem evolves_mkDepsClean (s : St) (cls : List Nat) :
    Evolves s (mkDepsClean s cls).1 :=
  evolves_trans (evolves_allocL s cls) (evolves_allocClos _ _)

theorem evolves_mkAwClean (s : St) (cls : List Nat) (own : Option Nat) :
    Evolves s (mkAwClean s cls own).1 :=
  evolves_trans (evolves_allocO s own)
    (evolves_trans (evolves_mkDepsClean _ cls) (evolves_allocClos _ _))

theorem evolves_runCleanList (fuel : Nat) (s : St) (l : List Nat) :
    Evolves s (runCleanList fuel s l) :=
  rcframe_evolves (runCleanList_frame fuel l s)

theorem evolves_runClean (fuel : Nat) (s : St) (c : Nat) :
    Evolves s (runClean fuel s c) :=
  rcframe_evolves (runClean_frame fuel c s)

theorem aggLoop_evolves (kn : St → String → Res) (env : Env) (elemT : Ty)
    (hkn : ∀ s nm, Evolves s (kn s nm).st) :
    ∀ (l : List (String × Nat)) (s : St) (pairs : List (String × Val))
      (cls : List Nat), Evolves s (aggLoop kn env elemT s l pairs cls).st := by
  intro l
  induction l with
  | nil => intro s pairs cls; exact evolves_refl s
  | cons p rest ih =>
    intro s pairs cls
    obtain ⟨nm, i⟩ := p
    unfold aggLoop
    split
    · exact ih s pairs cls
    · split
      · split
        · next s1 e c heq =>
            have h1 := hkn s nm
            rw [heq] at h1
            exact h1
        · next s1 v c heq =>
            have h1 := hkn s nm
            rw [heq] at h1
            exact evolves_trans h1 (ih s1 _ _)
      · exact ih s pairs cls

theorem argsLoop_evolves (kn : St → String → Res) (kt : St → Ty → Res)
    (env : Env) (hkn : ∀ s nm, Evolves s (kn s nm).st)
    (hkt : ∀ s t, Evolves s (kt s t).st) :
    ∀ (ins : List Ty) (s : St) (argv : List Val) (cls : List Nat),
      Evolves s (argsLoop kn kt env s ins argv cls).st := by
  intro ins
  induction ins with
  | nil => intro s argv cls; exact evolves_refl s
  | cons at0 rest ih =>
    intro s argv cls
    unfold argsLoop
    split
    · next elemT =>
        split
        · next s1 cls1 e heq =>
            have h1 := aggLoop_evolves kn env elemT hkn s.named s [] cls
            rw [heq] at h1
            exact h1
        · next s1 cls1 pairs heq =>
            have h1 := aggLoop_evolves kn env elemT hkn s.named s [] cls
            rw [heq] at h1
            split
            · exact h1
            · exact evolves_trans h1 (ih s1 _ _)
    · split
      · next s1 e c heq =>
          have h1 := hkt s at0
          rw [heq] at h1
          exact h1
      · next s1 v c heq =>
          have h1 := hkt s at0
          rw [heq] at h1
          exact evolves_trans h1 (ih s1 _ _)

theorem wfLoop_evolves (kn : St → String → Bool → Res)
    (kt : St → Ty → Bool → Res)
    (hkn : ∀ s nm tr, Evolves s (kn s nm tr).st)
    (hkt : ∀ s t tr, Evolves s (kt s t tr).st) :
    ∀ (fds : List FieldSpec) (s : St) (cls : List Nat),
      Evolves s (wfLoop kn kt s fds cls).st := by
  intro fds
  induction fds with
  | nil => intro s cls; exact evolves_refl s
  | cons fd rest ih =>
    intro s cls
    unfold wfLoop
    split
    · exact ih s cls
    · next payload htag =>
        dsimp only
        split
        · next s1 e c heq =>
            by_cases h : (payload.splitOn ",").headD "" = ""
            · rw [if_pos h] at heq
              have h1 := hkt s fd.ftype
                ((payload.splitOn ",").any (fun x => x == "transient"))
              rw [heq] at h1
              exact h1
            · rw [if_neg h] at heq
              have h1 := hkn s ((payload.splitOn ",").headD "")
                ((payload.splitOn ",").any (fun x => x == "transient"))
              rw [heq] at h1
              exact h1
        · next s1 v c heq =>
            by_cases h : (payload.splitOn ",").headD "" = ""
            · rw [if_pos h] at heq
              have h1 := hkt s fd.ftype
                ((payload.splitOn ",").any (fun x => x == "transient"))
              rw [heq] at h1
              exact evolves_trans h1 (ih s1 _)
            · rw [if_neg h] at heq
              have h1 := hkn s ((payload.splitOn ",").headD "")
                ((payload.splitOn ",").any (fun x => x == "transient"))
              rw [heq] at h1
              exact evolves_trans h1 (ih s1 _)

theorem engineStep_evolves (env : Env) (rc : Nat) (rec : St → Req → Res)
    (hrec : ∀ s r, Evolves s (rec s r).st) (s : St) (req : Req) :
    Evolves s (engineStep env rc rec s req).st := by
  cases req with
  | byName nm tr dry =>
    dsimp only [engineStep]
    split
    · exact evolves_refl s
    · exact hrec s _
  | byType t tr dry =>
    dsimp only [engineStep]
    split
    · split
      · exact hrec s _
      · exact evolves_refl s
      · exact evolves_refl s
    · split
      · exact evolves_refl s
      · exact hrec s _
  | getInj i tr dry =>
    dsimp only [engineStep]
    split
    · exact evolves_refl s
    · next inj hinj =>
        split
        · exact hrec s _
        · split
          · exact evolves_refl s
          · split
            · next s1 e c heq =>
                have h1 := hrec s (.iaw i dry)
                rw [heq] at h1
                exact h1
            · next s1 v c heq =>
                have h1 := hrec s (.iaw i dry)
                rw [heq] at h1
                split
                · exact evolves_trans h1 (evolves_setInst s1 i (some v))
                · next cid =>
                    refine evolves_trans h1 (evolves_trans
                      (evolves_setInst s1 i (some v)) (evolves_trans
                      (evolves_allocO _ (some cid)) (evolves_trans
                      (evolves_allocClos _ _) (evolves_setCleanF _ i _))))
  | iaw i dry =>
    dsimp only [engineStep]
    split
    · exact evolves_refl s
    · next inj hinj =>
        split
        · next s1 e c heq =>
            have h1 : Evolves s s1 := by
              cases hp : inj.prov with
              | valueP v => rw [hp] at heq; dsimp only at heq; cases heq
              | funcP f =>
                rw [hp] at heq
                dsimp only at heq
                have h2 := hrec s (.fi f dry)
                rw [heq] at h2
                exact h2
            exact h1
        · next s1 v c1 heq =>
            have h1 : Evolves s s1 := by
              cases hp : inj.prov with
              | valueP w =>
                rw [hp] at heq
                dsimp only at heq
                cases heq
                exact evolves_refl s
              | funcP f =>
                rw [hp] at heq
                dsimp only at heq
                have h2 := hrec s (.fi f dry)
                rw [heq] at h2
                exact h2
            split
            · exact evolves_trans h1 (evolves_finishIaw s1 v c1 none)
            · next sid hsid =>
                split
                · next s2 e c heq2 =>
                    have h2 := hrec s1 (.wf sid dry)
                    rw [heq2] at h2
                    exact evolves_trans h1 h2
                · next s2 w c2 heq2 =>
                    have h2 := hrec s1 (.wf sid dry)
                    rw [heq2] at h2
                    exact evolves_trans h1
                      (evolves_trans h2 (evolves_finishIaw s2 v c1 c2))
  | fi f dry =>
    dsimp only [engineStep]
    have hloop := argsLoop_evolves (fun s' nm => rec s' (.byName nm false dry))
      (fun s' t => rec s' (.byType t false dry)) env
      (fun s' nm => hrec s' _) (fun s' t => hrec s' _) f.ins s [] []
    split
    · next s1 cls e heq =>
        rw [heq] at hloop
        exact evolves_trans hloop (evolves_runCleanList rc s1 cls)
    · next s1 cls argv heq =>
        rw [heq] at hloop
        split
        · split
          · exact hloop
          · exact hloop
        · have hcall := evolves_callFn s1 f argv
          split
          · next s2 heq2 =>
              rw [heq2] at hcall
              exact evolves_trans hloop (evolves_trans hcall
                (evolves_mkFiClear s2 cls none .vnil))
          · next s2 r0 heq2 =>
              rw [heq2] at hcall
              exact evolves_trans hloop (evolves_trans hcall
                (evolves_mkFiClear s2 cls none (dynVal r0)))
          · next s2 r0 r1 more heq2 =>
              rw [heq2] at hcall
              have h2 := evolves_trans hloop hcall
              split
              · next e heqe =>
                  exact evolves_trans h2 (evolves_runCleanList rc s2 cls)
              · split
                · next copt heq1 =>
                    exact evolves_trans h2
                      (evolves_mkFiClear s2 cls copt (dynVal r0))
                · exact evolves_trans h2
                    (evolves_mkFiClear s2 cls none (dynVal r0))
  | wf sid dry =>
    dsimp only [engineStep]
    have hloop := wfLoop_evolves (fun s' nm tr => rec s' (.byName nm tr dry))
      (fun s' t tr => rec s' (.byType t tr dry))
      (fun s' nm tr => hrec s' _) (fun s' t tr => hrec s' _)
      (env.fieldsA sid) s []
    split
    · next s1 cls e heq =>
        rw [heq] at hloop
        exact evolves_trans hloop (evolves_runCleanList rc s1 cls)
    · next s1 cls u heq =>
        rw [heq] at hloop
        split
        · exact evolves_trans hloop (evolves_mkDepsClean s1 cls)
        · next aw haw =>
            split
            · next e heqe =>
                refine evolves_trans ?_ (evolves_runClean rc _ _)
                refine evolves_trans ?_ (evolves_mkAwClean _ cls _)
                refine evolves_trans hloop ?_
                cases aw.retClean with
                | none => exact evolves_misc s1 _ rfl rfl rfl rfl rfl rfl
                | some t =>
                    dsimp only
                    exact evolves_trans
                      (evolves_misc s1
                        { s1 with awCalls := s1.awCalls ++ [aw.awTag] }
                        rfl rfl rfl rfl rfl rfl)
                      (evolves_allocClos _ _)
            · refine evolves_trans ?_ (evolves_mkAwClean _ cls _)
              refine evolves_trans hloop ?_
              cases aw.retClean with
              | none => exact evolves_misc s1 _ rfl rfl rfl rfl rfl rfl
              | some t =>
                  dsimp only
                  exact evolves_trans
                    (evolves_misc s1
                      { s1 with awCalls := s1.awCalls ++ [aw.awTag] }
                      rfl rfl rfl rfl rfl rfl)
                    (evolves_allocClos _ _)

theorem engine_evolves (env : Env) :
    ∀ (fuel : Nat) (s : St) (req : Req),
      Evolves s (engine env fuel s req).st := by
  intro fuel
  induction fuel with
  | zero => intro s req; exact evolves_refl s
  | succ fuel ih =>
    intro s req
    exact engineStep_evolves env fuel (engine env fuel) ih s req

/-! ## Dry-run purity

A dry-run engine call never invokes a producer body (the calls field is
unchanged) and never writes a descriptor cache (the injs field is
unchanged).  The rollback paths of a dry call only ever run cleanups built
during the same dry call; the predicate DryC characterises such cleanups:
composed closures whose reachable parts contain no producer-installed
singleton wrapper, so running them cannot touch any injector. -/

inductive DryC : St → Nat → Prop where
  | baseC {s : St} {c t : Nat} : s.closAt c = some (.base t) → DryC s c
  | depsC {s : St} {c d : Nat} : s.closAt c = some (.deps d) →
      d < s.lCells.length → (∀ x, x ∈ s.lCellD d → DryC s x) → DryC s c
  | iawCc {s : St} {c a b : Nat} : s.closAt c = some (.iawC a b) →
      a < s.oCells.length → b < s.oCells.length →
      (∀ x, s.oCellD a = some x → DryC s x) →
      (∀ x, s.oCellD b = some x → DryC s x) → DryC s c
  | awCc {s : St} {c dc oc : Nat} : s.closAt c = some (.awClear dc oc) →
      DryC s dc → oc < s.oCells.length →
      (∀ x, s.oCellD oc = some x → DryC s x) → DryC s c

theorem get?_some_lt {l : List α} {i : Nat} {a : α} (h : l.get? i = some a) :
    i < l.length := by
  by_contra hc
  rw [List.get?_eq_none.2 (Nat.le_of_not_lt hc)] at h
  exact Option.noConfusion h

theorem closAt_evolves {s s' : St} (h : Evolves s s') {c : Nat} {cl : Clos}
    (hc : s.closAt c = some cl) : s'.closAt c = some cl := by
  obtain ⟨l, hl⟩ := h.closPre
  show s'.clos.get? c = some cl
  rw [hl, List.get?_append (get?_some_lt hc)]
  exact hc

theorem DryC_mono {s s' : St} (h : Evolves s s') {c : Nat}
    (hd : DryC s c) : DryC s' c := by
  induction hd with
  | baseC hc => exact DryC.baseC (closAt_evolves h hc)
  | depsC hc hlt hmem ih =>
    refine DryC.depsC (closAt_evolves h hc) (Nat.lt_of_lt_of_le hlt h.lLen) ?_
    intro x hx
    rcases h.lC _ hlt with hcell | hcell
    · rw [hcell] at hx
      exact ih x hx
    · rw [hcell] at hx
      exact absurd hx (List.not_mem_nil x)
  | iawCc hc hla hlb hma hmb iha ihb =>
    refine DryC.iawCc (closAt_evolves h hc) (Nat.lt_of_lt_of_le hla h.oLen)
      (Nat.lt_of_lt_of_le hlb h.oLen) ?_ ?_
    · intro x hx
      rcases h.oC _ hla with hcell | hcell
      · rw [hcell] at hx
        exact iha x hx
      · rw [hcell] at hx
        exact Option.noConfusion hx
    · intro x hx
      rcases h.oC _ hlb with hcell | hcell
      · rw [hcell] at hx
        exact ihb x hx
      · rw [hcell] at hx
        exact Option.noConfusion hx
  | awCc hc hdc hlt hm ihdc ihm =>
    refine DryC.awCc (closAt_evolves h hc) ihdc
      (Nat.lt_of_lt_of_le hlt h.oLen) ?_
    intro x hx
    rcases h.oC _ hlt with hcell | hcell
    · rw [hcell] at hx
      exact ihm x hx
    · rw [hcell] at hx
      exact Option.noConfusion hx

/-- Running a DryC cleanup never touches the injector heap. -/
theorem DryC_run_injs :
    ∀ (fuel : Nat) (s : St) (c : Nat), DryC s c →
      (runClean fuel s c).injs = s.injs := by
  intro fuel
  induction fuel with
  | zero => intro s c _; rfl
  | succ fuel ih =>
    have hfold : ∀ (l : List Nat) (s : St), (∀ x ∈ l, DryC s x) →
        (l.foldl (fun acc x => runClean fuel acc x) s).injs = s.injs := by
      intro l
      induction l with
      | nil => intro s _; rfl
      | cons x xs ihx =>
        intro s hmem
        show ((xs.foldl (fun acc x => runClean fuel acc x)
          (runClean fuel s x))).injs = s.injs
        rw [ihx (runClean fuel s x) (fun y hy =>
          DryC_mono (evolves_runClean fuel s x) (hmem y (List.mem_cons_of_mem x hy)))]
        exact ih s x (hmem x (List.mem_cons_self x xs))
    have hcons : ∀ (s : St) (i : Nat), (∀ x, s.oCellD i = some x → DryC s x) →
        (consumeO (runClean fuel) s i).injs = s.injs := by
      intro s i hm
      unfold consumeO
      cases hcell : s.oCellD i with
      | none => rfl
      | some k =>
        show (setOCell (runClean fuel s k) i none).injs = s.injs
        show (runClean fuel s k).injs = s.injs
        exact ih s k (hm k hcell)
    intro s c hd
    cases hd with
    | baseC hc => simp only [runClean_succ, hc]
    | depsC hc hlt hmem =>
      rename_i d
      simp only [runClean_succ, hc]
      show ((s.lCellD d).foldl (fun acc x => runClean fuel acc x) s).injs = s.injs
      exact hfold _ s hmem
    | iawCc hc hla hlb hma hmb =>
      rename_i a b
      simp only [runClean_succ, hc]
      have e1 : Evolves s (consumeO (runClean fuel) s a) :=
        rcframe_evolves
          (consumeO_frame _ (fun s c => runClean_frame fuel c s) s a)
      rw [hcons (consumeO (runClean fuel) s a) b ?_]
      · exact hcons s a hma
      · intro x hx
        rcases e1.oC b hlb with hcell | hcell
        · rw [hcell] at hx
          exact DryC_mono e1 (hmb x hx)
        · rw [hcell] at hx
          exact Option.noConfusion hx
    | awCc hc hdc hlt hm =>
      rename_i dc oc
      simp only [runClean_succ, hc]
      have e1 : Evolves s (runClean fuel s dc) := evolves_runClean fuel s dc
      rw [hcons (runClean fuel s dc) oc ?_]
      · exact ih s dc hdc
      · intro x hx
        rcases e1.oC oc hlt with hcell | hcell
        · rw [hcell] at hx
          exact DryC_mono e1 (hm x hx)
        · rw [hcell] at hx
          exact Option.noConfusion hx

theorem runCleanList_dry (fuel : Nat) :
    ∀ (l : List Nat) (s : St), (∀ x ∈ l, DryC s x) →
      (runCleanList fuel s l).injs = s.injs := by
  intro l
  induction l with
  | nil => intro s _; rfl
  | cons x xs ih =>
    intro s hmem
    show (runCleanList fuel (runClean fuel s x) xs).injs = s.injs
    rw [ih (runClean fuel s x) (fun y hy =>
      DryC_mono (evolves_runClean fuel s x) (hmem y (List.mem_cons_of_mem x hy)))]
    exact DryC_run_injs fuel s x (hmem x (List.mem_cons_self x xs))

/-! Allocation access lemmas. -/

theorem allocClos_self (s : St) (c : Clos) :
    (allocClos s c).1.closAt (allocClos s c).2 = some c := by
  show (s.clos ++ [c]).get? s.clos.length = some c
  exact List.get?_concat_length s.clos c

theorem allocO_self (s : St) (v : Option Nat) :
    (allocO s v).1.oCellD (allocO s v).2 = v := by
  show ((s.oCells ++ [v]).get? s.oCells.length).getD none = v
  rw [List.get?_concat_length]
  rfl

theorem allocL_self (s : St) (v : List Nat) :
    (allocL s v).1.lCellD (allocL s v).2 = v := by
  show ((s.lCells ++ [v]).get? s.lCells.length).getD [] = v
  rw [List.get?_concat_length]
  rfl

theorem oCellD_allocO_old (s : St) (v : Option Nat) {i : Nat}
    (h : i < s.oCells.length) : (allocO s v).1.oCellD i = s.oCellD i := by
  show ((s.oCells ++ [v]).get? i).getD none = _
  rw [List.get?_append h]
  rfl

theorem lCellD_allocL_old (s : St) (v : List Nat) {i : Nat}
    (h : i < s.lCells.length) : (allocL s v).1.lCellD i = s.lCellD i := by
  show ((s.lCells ++ [v]).get? i).getD [] = _
  rw [List.get?_append h]
  rfl

/-- The dry-run outcome condition on an engine result: a returned cleanup
is a DryC closure. -/
def OutDryOk (s : St) : EOut → Prop
  | .okO _ (some c) => DryC s c
  | _ => True

theorem allocO_lt_self (s : St) (v : Option Nat) :
    (allocO s v).2 < (allocO s v).1.oCells.length := by
  simp [allocO]

theorem allocL_lt_self (s : St) (v : List Nat) :
    (allocL s v).2 < (allocL s v).1.lCells.length := by
  simp [allocL]

theorem finishIaw_dry (s : St) (v : Val) (c1 c2 : Option Nat)
    (h1 : ∀ x, c1 = some x → DryC s x) (h2 : ∀ x, c2 = some x → DryC s x) :
    (finishIaw s v c1 c2).st.injs = s.injs ∧
    (finishIaw s v c1 c2).st.calls = s.calls ∧
    OutDryOk (finishIaw s v c1 c2).st (finishIaw s v c1 c2).out := by
  refine ⟨rfl, rfl, ?_⟩
  show DryC (finishIaw s v c1 c2).st
    (allocClos (allocO (allocO s c1).1 c2).1
      (.iawC (allocO s c1).2 (allocO (allocO s c1).1 c2).2)).2
  have hev : Evolves s (finishIaw s v c1 c2).st := evolves_finishIaw s v c1 c2
  refine DryC.iawCc (allocClos_self _ _) ?_ ?_ ?_ ?_
  · show (allocO s c1).2 < (allocO (allocO s c1).1 c2).1.oCells.length
    exact Nat.lt_trans (allocO_lt_self s c1)
      (by simp [allocO])
  · exact allocO_lt_self (allocO s c1).1 c2
  · intro x hx
    have : (finishIaw s v c1 c2).st.oCellD (allocO s c1).2 = c1 := by
      show (allocO (allocO s c1).1 c2).1.oCellD (allocO s c1).2 = c1
      rw [oCellD_allocO_old (allocO s c1).1 c2 (allocO_lt_self s c1)]
      exact allocO_self s c1
    rw [this] at hx
    exact DryC_mono hev (h1 x hx)
  · intro x hx
    have : (finishIaw s v c1 c2).st.oCellD (allocO (allocO s c1).1 c2).2
        = c2 := by
      show (allocO (allocO s c1).1 c2).1.oCellD (allocO (allocO s c1).1 c2).2 = c2
      exact allocO_self (allocO s c1).1 c2
    rw [this] at hx
    exact DryC_mono hev (h2 x hx)

theorem mkDepsClean_dry (s : St) (cls : List Nat)
    (h : ∀ x ∈ cls, DryC s x) :
    DryC (mkDepsClean s cls).1 (mkDepsClean s cls).2 := by
  have hev : Evolves s (mkDepsClean s cls).1 := evolves_mkDepsClean s cls
  refine DryC.depsC (allocClos_self _ _) ?_ ?_
  · exact allocL_lt_self s cls
  · intro x hx
    have : (mkDepsClean s cls).1.lCellD (allocL s cls).2 = cls := by
      show (allocL s cls).1.lCellD (allocL s cls).2 = cls
      exact allocL_self s cls
    rw [this] at hx
    exact DryC_mono hev (h x hx)

theorem mkAwClean_dry (s : St) (cls : List Nat) (own : Option Nat)
    (hown : ∀ x, own = some x → DryC s x) (hcls : ∀ x ∈ cls, DryC s x) :
    DryC (mkAwClean s cls own).1 (mkAwClean s cls own).2.1 ∧
    DryC (mkAwClean s cls own).1 (mkAwClean s cls own).2.2 := by
  have hdeps : DryC (mkDepsClean (allocO s own).1 cls).1
      (mkDepsClean (allocO s own).1 cls).2 :=
    mkDepsClean_dry (allocO s own).1 cls
      (fun x hx => DryC_mono (evolves_allocO s own) (hcls x hx))
  have hdeps2 : DryC (mkAwClean s cls own).1 (mkAwClean s cls own).2.2 :=
    DryC_mono (evolves_allocClos _ _) hdeps
  refine ⟨?_, hdeps2⟩
  refine DryC.awCc (allocClos_self _ _) hdeps2 ?_ ?_
  · show (allocO s own).2 < (mkAwClean s cls own).1.oCells.length
    show (allocO s own).2 < (allocO s own).1.oCells.length
    exact allocO_lt_self s own
  · intro x hx
    have : (mkAwClean s cls own).1.oCellD (allocO s own).2 = own := by
      show (allocO s own).1.oCellD (allocO s own).2 = own
      exact allocO_self s own
    rw [this] at hx
    refine DryC_mono ?_ (hown x hx)
    exact evolves_trans (evolves_allocO s own)
      (evolves_trans (evolves_mkDepsClean _ cls) (evolves_allocClos _ _))

theorem aggLoop_dry (kn : St → String → Res) (env : Env) (elemT : Ty)
    (hknE : ∀ s nm, Evolves s (kn s nm).st)
    (hkn : ∀ s nm, (kn s nm).st.injs = s.injs ∧
      (kn s nm).st.calls = s.calls ∧ OutDryOk (kn s nm).st (kn s nm).out) :
    ∀ (l : List (String × Nat)) (s : St) (pairs : List (String × Val))
      (cls : List Nat), (∀ x ∈ cls, DryC s x) →
      (aggLoop kn env elemT s l pairs cls).st.injs = s.injs ∧
      (aggLoop kn env elemT s l pairs cls).st.calls = s.calls ∧
      ∀ x ∈ (aggLoop kn env elemT s l pairs cls).cleans,
        DryC (aggLoop kn env elemT s l pairs cls).st x := by
  intro l
  induction l with
  | nil => intro s pairs cls hcls; exact ⟨rfl, rfl, hcls⟩
  | cons p rest ih =>
    intro s pairs cls hcls
    obtain ⟨nm, i⟩ := p
    unfold aggLoop
    split
    · exact ih s pairs cls hcls
    · split
      · split
        · next s1 e c heq =>
            have h1 := hkn s nm
            have h2 := hknE s nm
            rw [heq] at h1 h2
            exact ⟨h1.1, h1.2.1, fun x hx => DryC_mono h2 (hcls x hx)⟩
        · next s1 v c heq =>
            have h1 := hkn s nm
            have h2 := hknE s nm
            rw [heq] at h1 h2
            have hcls1 : ∀ x ∈ (match c with
                | some x => cls ++ [x] | none => cls), DryC s1 x := by
              cases c with
              | none => exact fun x hx => DryC_mono h2 (hcls x hx)
              | some y =>
                intro x hx
                rcases List.mem_append.1 hx with hx | hx
                · exact DryC_mono h2 (hcls x hx)
                · rw [List.mem_singleton.1 hx]
                  exact h1.2.2
            have h3 := ih s1 (pairs ++ [(nm, v)]) _ hcls1
            exact ⟨h3.1.trans h1.1, h3.2.1.trans h1.2.1, h3.2.2⟩
      · exact ih s pairs cls hcls

theorem argsLoop_dry (kn : St → String → Res) (kt : St → Ty → Res)
    (env : Env)
    (hknE : ∀ s nm, Evolves s (kn s nm).st)
    (hktE : ∀ s t, Evolves s (kt s t).st)
    (hkn : ∀ s nm, (kn s nm).st.injs = s.injs ∧
      (kn s nm).st.calls = s.calls ∧ OutDryOk (kn s nm).st (kn s nm).out)
    (hkt : ∀ s t, (kt s t).st.injs = s.injs ∧
      (kt s t).st.calls = s.calls ∧ OutDryOk (kt s t).st (kt s t).out) :
    ∀ (ins : List Ty) (s : St) (argv : List Val) (cls : List Nat),
      (∀ x ∈ cls, DryC s x) →
      (argsLoop kn kt env s ins argv cls).st.injs = s.injs ∧
      (argsLoop kn kt env s ins argv cls).st.calls = s.calls ∧
      ∀ x ∈ (argsLoop kn kt env s ins argv cls).cleans,
        DryC (argsLoop kn kt env s ins argv cls).st x := by
  intro ins
  induction ins with
  | nil => intro s argv cls hcls; exact ⟨rfl, rfl, hcls⟩
  | cons at0 rest ih =>
    intro s argv cls hcls
    unfold argsLoop
    split
    · next elemT =>
        have hagg := aggLoop_dry kn env elemT hknE hkn s.named s [] cls hcls
        have haggE := aggLoop_evolves kn env elemT hknE s.named s [] cls
        split
        · next s1 cls1 e heq =>
            rw [heq] at hagg
            exact ⟨hagg.1, hagg.2.1, hagg.2.2⟩
        · next s1 cls1 pairs heq =>
            rw [heq] at hagg haggE
            split
            · exact ⟨hagg.1, hagg.2.1, hagg.2.2⟩
            · have h3 := ih s1 (argv ++ [.vmap pairs]) cls1 hagg.2.2
              exact ⟨h3.1.trans hagg.1, h3.2.1.trans hagg.2.1, h3.2.2⟩
    · split
      · next s1 e c heq =>
          have h1 := hkt s at0
          have h2 := hktE s at0
          rw [heq] at h1 h2
          exact ⟨h1.1, h1.2.1, fun x hx => DryC_mono h2 (hcls x hx)⟩
      · next s1 v c heq =>
          have h1 := hkt s at0
          have h2 := hktE s at0
          rw [heq] at h1 h2
          have hcls1 : ∀ x ∈ (match c with
              | some x => cls ++ [x] | none => cls), DryC s1 x := by
            cases c with
            | none => exact fun x hx => DryC_mono h2 (hcls x hx)
            | some y =>
              intro x hx
              rcases List.mem_append.1 hx with hx | hx
              · exact DryC_mono h2 (hcls x hx)
              · rw [List.mem_singleton.1 hx]
                exact h1.2.2
          have h3 := ih s1 (argv ++ [v]) _ hcls1
          exact ⟨h3.1.trans h1.1, h3.2.1.trans h1.2.1, h3.2.2⟩

theorem wfLoop_dry (kn : St → String → Bool → Res)
    (kt : St → Ty → Bool → Res)
    (hknE : ∀ s nm tr, Evolves s (kn s nm tr).st)
    (hktE : ∀ s t tr, Evolves s (kt s t tr).st)
    (hkn : ∀ s nm tr, (kn s nm tr).st.injs = s.injs ∧
      (kn s nm tr).st.calls = s.calls ∧
      OutDryOk (kn s nm tr).st (kn s nm tr).out)
    (hkt : ∀ s t tr, (kt s t tr).st.injs = s.injs ∧
      (kt s t tr).st.calls = s.calls ∧
      OutDryOk (kt s t tr).st (kt s t tr).out) :
    ∀ (fds : List FieldSpec) (s : St) (cls : List Nat),
      (∀ x ∈ cls, DryC s x) →
      (wfLoop kn kt s fds cls).st.injs = s.injs ∧
      (wfLoop kn kt s fds cls).st.calls = s.calls ∧
      ∀ x ∈ (wfLoop kn kt s fds cls).cleans,
        DryC (wfLoop kn kt s fds cls).st x := by
  intro fds
  induction fds with
  | nil => intro s cls hcls; exact ⟨rfl, rfl, hcls⟩
  | cons fd rest ih =>
    intro s cls hcls
    unfold wfLoop
    split
    · exact ih s cls hcls
    · next payload htag =>
        dsimp only
        have hcallF : ∀ (r : Res),
            (if (payload.splitOn ",").headD "" = "" then
              kt s fd.ftype
                ((payload.splitOn ",").any (fun x => x == "transient"))
            else
              kn s ((payload.splitOn ",").headD "")
                ((payload.splitOn ",").any (fun x => x == "transient"))) = r →
            Evolves s r.st ∧ (r.st.injs = s.injs ∧ r.st.calls = s.calls ∧
              OutDryOk r.st r.out) := by
          intro r hr
          by_cases h : (payload.splitOn ",").headD "" = ""
          · rw [if_pos h] at hr
            rw [← hr]
            exact ⟨hktE s fd.ftype _, hkt s fd.ftype _⟩
          · rw [if_neg h] at hr
            rw [← hr]
            exact ⟨hknE s _ _, hkn s _ _⟩
        split
        · next s1 e c heq =>
            obtain ⟨h2, h1⟩ := hcallF _ heq
            exact ⟨h1.1, h1.2.1, fun x hx => DryC_mono h2 (hcls x hx)⟩
        · next s1 v c heq =>
            obtain ⟨h2, h1⟩ := hcallF _ heq
            have hcls1 : ∀ x ∈ (match c with
                | some x => cls ++ [x] | none => cls), DryC s1 x := by
              cases c with
              | none => exact fun x hx => DryC_mono h2 (hcls x hx)
              | some y =>
                intro x hx
                rcases List.mem_append.1 hx with hx | hx
                · exact DryC_mono h2 (hcls x hx)
                · rw [List.mem_singleton.1 hx]
                  exact h1.2.2
            have h3 := ih s1 _ hcls1
            exact ⟨h3.1.trans h1.1, h3.2.1.trans h1.2.1, h3.2.2⟩

theorem engineStep_dry (env : Env) (rc : Nat) (rec : St → Req → Res)
    (hrecE : ∀ s r, Evolves s (rec s r).st)
    (hrec : ∀ s r, r.dryFlag = true →
      (rec s r).st.injs = s.injs ∧ (rec s r).st.calls = s.calls ∧
      OutDryOk (rec s r).st (rec s r).out)
    (s : St) (req : Req) (hdry : req.dryFlag = true) :
    (engineStep env rc rec s req).st.injs = s.injs ∧
    (engineStep env rc rec s req).st.calls = s.calls ∧
    OutDryOk (engineStep env rc rec s req).st
      (engineStep env rc rec s req).out := by
  cases req with
  | byName nm tr dry =>
    dsimp only [Req.dryFlag] at hdry
    subst hdry
    dsimp only [engineStep]
    split
    · exact ⟨rfl, rfl, trivial⟩
    · exact hrec s _ rfl
  | byType t tr dry =>
    dsimp only [Req.dryFlag] at hdry
    subst hdry
    dsimp only [engineStep]
    split
    · split
      · exact hrec s _ rfl
      · exact ⟨rfl, rfl, trivial⟩
      · exact ⟨rfl, rfl, trivial⟩
    · split
      · exact ⟨rfl, rfl, trivial⟩
      · exact hrec s _ rfl
  | getInj i tr dry =>
    dsimp only [Req.dryFlag] at hdry
    subst hdry
    dsimp only [engineStep]
    split
    · exact ⟨rfl, rfl, trivial⟩
    · next inj hinj =>
        rw [if_pos (by simp)]
        exact hrec s _ rfl
  | iaw i dry =>
    dsimp only [Req.dryFlag] at hdry
    subst hdry
    dsimp only [engineStep]
    split
    · exact ⟨rfl, rfl, trivial⟩
    · next inj hinj =>
        split
        · next s1 e c heq =>
            have h1 : s1.injs = s.injs ∧ s1.calls = s.calls := by
              cases hp : inj.prov with
              | valueP v =>
                rw [hp] at heq
                dsimp only at heq
                cases heq
              | funcP f =>
                rw [hp] at heq
                dsimp only at heq
                have h2 := hrec s (.fi f true) rfl
                rw [heq] at h2
                exact ⟨h2.1, h2.2.1⟩
            exact ⟨h1.1, h1.2, trivial⟩
        · next s1 v c1 heq =>
            have h1 : s1.injs = s.injs ∧ s1.calls = s.calls ∧
                (∀ x, c1 = some x → DryC s1 x) := by
              cases hp : inj.prov with
              | valueP w =>
                rw [hp] at heq
                dsimp only at heq
                cases heq
                exact ⟨rfl, rfl, fun x hx => Option.noConfusion hx⟩
              | funcP f =>
                rw [hp] at heq
                dsimp only at heq
                have h2 := hrec s (.fi f true) rfl
                rw [heq] at h2
                refine ⟨h2.1, h2.2.1, ?_⟩
                intro x hx
                have h3 := h2.2.2
                rw [hx] at h3
                exact h3
            split
            · have h3 := finishIaw_dry s1 v c1 none h1.2.2
                (fun x hx => Option.noConfusion hx)
              exact ⟨h3.1.trans h1.1, h3.2.1.trans h1.2.1, h3.2.2⟩
            · next sid hsid =>
                split
                · next s2 e c heq2 =>
                    have h2 := hrec s1 (.wf sid true) rfl
                    rw [heq2] at h2
                    exact ⟨h2.1.trans h1.1, h2.2.1.trans h1.2.1, trivial⟩
                · next s2 w c2 heq2 =>
                    have h2 := hrec s1 (.wf sid true) rfl
                    have h2E := hrecE s1 (.wf sid true)
                    rw [heq2] at h2 h2E
                    have hc2 : ∀ x, c2 = some x → DryC s2 x := by
                      intro x hx
                      have h3 := h2.2.2
                      rw [hx] at h3
                      exact h3
                    have hc1 : ∀ x, c1 = some x → DryC s2 x :=
                      fun x hx => DryC_mono h2E (h1.2.2 x hx)
                    have h3 := finishIaw_dry s2 v c1 c2 hc1 hc2
                    exact ⟨(h3.1.trans h2.1).trans h1.1,
                      (h3.2.1.trans h2.2.1).trans h1.2.1, h3.2.2⟩
  | fi f dry =>
    dsimp only [Req.dryFlag] at hdry
    subst hdry
    dsimp only [engineStep]
    have hloop := argsLoop_dry (fun s' nm => rec s' (.byName nm false true))
      (fun s' t => rec s' (.byType t false true)) env
      (fun s' nm => hrecE s' _) (fun s' t => hrecE s' _)
      (fun s' nm => hrec s' _ rfl) (fun s' t => hrec s' _ rfl)
      f.ins s [] [] (fun x hx => absurd hx (List.not_mem_nil x))
    split
    · next s1 cls e heq =>
        rw [heq] at hloop
        refine ⟨?_, ?_, trivial⟩
        · exact (runCleanList_dry rc cls s1 hloop.2.2).trans hloop.1
        · exact ((runCleanList_frame rc cls s1).calls).trans hloop.2.1
    · next s1 cls argv heq =>
        rw [heq] at hloop
        rw [if_pos rfl]
        split
        · exact ⟨hloop.1, hloop.2.1, trivial⟩
        · exact ⟨hloop.1, hloop.2.1, trivial⟩
  | wf sid dry =>
    dsimp only [Req.dryFlag] at hdry
    subst hdry
    dsimp only [engineStep]
    have hloop := wfLoop_dry (fun s' nm tr => rec s' (.byName nm tr true))
      (fun s' t tr => rec s' (.byType t tr true))
      (fun s' nm tr => hrecE s' _) (fun s' t tr => hrecE s' _)
      (fun s' nm tr => hrec s' _ rfl) (fun s' t tr => hrec s' _ rfl)
      (env.fieldsA sid) s [] (fun x hx => absurd hx (List.not_mem_nil x))
    split
    · next s1 cls e heq =>
        rw [heq] at hloop
        refine ⟨?_, ?_, trivial⟩
        · exact (runCleanList_dry rc cls s1 hloop.2.2).trans hloop.1
        · exact ((runCleanList_frame rc cls s1).calls).trans hloop.2.1
    · next s1 cls u heq =>
        rw [heq] at hloop
        split
        · refine ⟨hloop.1, hloop.2.1, ?_⟩
          show DryC (mkDepsClean s1 cls).1 (mkDepsClean s1 cls).2
          exact mkDepsClean_dry s1 cls hloop.2.2
        · next aw haw =>
            cases hrc : aw.retClean with
            | none =>
              dsimp only
              have hbump : Evolves s1
                  { s1 with awCalls := s1.awCalls ++ [aw.awTag] } :=
                evolves_misc s1 _ rfl rfl rfl rfl rfl rfl
              have hclsT : ∀ y ∈ cls,
                  DryC { s1 with awCalls := s1.awCalls ++ [aw.awTag] } y :=
                fun y hy => DryC_mono hbump (hloop.2.2 y hy)
              have haw2 := mkAwClean_dry
                { s1 with awCalls := s1.awCalls ++ [aw.awTag] } cls none
                (fun x hx => Option.noConfusion hx) hclsT
              split
              · next e heqe =>
                  refine ⟨?_, ?_, trivial⟩
                  · exact (DryC_run_injs rc _ _ haw2.2).trans hloop.1
                  · exact ((runClean_frame rc _ _).calls).trans hloop.2.1
              · exact ⟨hloop.1, hloop.2.1, haw2.1⟩
            | some t =>
              dsimp only
              have hbump : Evolves s1
                  (allocClos { s1 with awCalls := s1.awCalls ++ [aw.awTag] }
                    (.base t)).1 :=
                evolves_trans
                  (evolves_misc s1 { s1 with awCalls := s1.awCalls ++ [aw.awTag] }
                    rfl rfl rfl rfl rfl rfl)
                  (evolves_allocClos _ _)
              have hclsT : ∀ y ∈ cls,
                  DryC (allocClos
                    { s1 with awCalls := s1.awCalls ++ [aw.awTag] }
                    (.base t)).1 y :=
                fun y hy => DryC_mono hbump (hloop.2.2 y hy)
              have hown : ∀ x,
                  (some (allocClos
                    { s1 with awCalls := s1.awCalls ++ [aw.awTag] }
                    (.base t)).2 : Option Nat) = some x →
                  DryC (allocClos
                    { s1 with awCalls := s1.awCalls ++ [aw.awTag] }
                    (.base t)).1 x := by
                intro x hx
                cases hx
                exact DryC.baseC (allocClos_self _ _)
              have haw2 := mkAwClean_dry
                (allocClos { s1 with awCalls := s1.awCalls ++ [aw.awTag] }
                  (.base t)).1 cls
                (some (allocClos
                  { s1 with awCalls := s1.awCalls ++ [aw.awTag] }
                  (.base t)).2) hown hclsT
              split
              · next e heqe =>
                  refine ⟨?_, ?_, trivial⟩
                  · exact (DryC_run_injs rc _ _ haw2.2).trans hloop.1
                  · exact ((runClean_frame rc _ _).calls).trans hloop.2.1
              · exact ⟨hloop.1, hloop.2.1, haw2.1⟩

theorem engine_dry (env : Env) :
    ∀ (fuel : Nat) (s : St) (req : Req), req.dryFlag = true →
      (engine env fuel s req).st.injs = s.injs ∧
      (engine env fuel s req).st.calls = s.calls ∧
      OutDryOk (engine env fuel s req).st (engine env fuel s req).out := by
  intro fuel
  induction fuel with
  | zero => intro s req _; exact ⟨rfl, rfl, trivial⟩
  | succ fuel ih =>
    intro s req h
    exact engineStep_dry env fuel (engine env fuel)
      (engine_evolves env fuel) ih s req h

/-! ## Claim support lemmas -/

theorem injAt_setInst (s : St) (i : Nat) (v : Option Val) :
    (setInst s i v).injAt i = (s.injAt i).map (fun inj => { inj with inst := v }) :=
  listModify_get?_self _ _ _

theorem injAt_setCleanF (s : St) (i : Nat) (c : Option Nat) :
    (setCleanF s i c).injAt i =
      (s.injAt i).map (fun inj => { inj with clean := c }) :=
  listModify_get?_self _ _ _

theorem engine_succ (env : Env) (fuel : Nat) (s : St) (req : Req) :
    engine env (fuel + 1) s req = engineStep env fuel (engine env fuel) s req :=
  rfl

/-- The cached-singleton fast path of get: a non-transient, non-dry
resolution of an injector with a cached instance returns the cached
instance and cleanup and does not change the state at all. -/
theorem get_cached (env : Env) (fuel : Nat) (s : St) (i : Nat)
    (inj : Injector) (v : Val) (hinj : s.injAt i = some inj)
    (hT : inj.transientF = false) (hinst : inj.inst = some v) :
    engine env (fuel + 1) s (.getInj i false false) = ⟨s, .okO v inj.clean⟩ := by
  rw [engine_succ]
  dsimp only [engineStep]
  simp only [hinj, hT, hinst, Bool.or_false, Bool.false_or]
  rw [if_neg (by simp)]

theorem injAt_allocO (s : St) (v : Option Nat) (i : Nat) :
    (allocO s v).1.injAt i = s.injAt i := rfl

theorem injAt_allocClos (s : St) (c : Clos) (i : Nat) :
    (allocClos s c).1.injAt i = s.injAt i := rfl

/-- The caching path of get: a successful first non-transient resolution
stores the produced value and the installed cleanup in the injector. -/
theorem get_caches (env : Env) (fuel : Nat) (s : St) (i : Nat)
    (inj : Injector) (v : Val) (c : Option Nat) (s' : St)
    (hinj : s.injAt i = some inj) (hT : inj.transientF = false)
    (hinst : inj.inst = none)
    (hrun : engine env (fuel + 1) s (.getInj i false false) = ⟨s', .okO v c⟩) :
    ∃ inj', s'.injAt i = some inj' ∧ inj'.inst = some v ∧ inj'.clean = c := by
  rw [engine_succ] at hrun
  dsimp only [engineStep] at hrun
  simp only [hinj, hT, hinst, Bool.or_false, Bool.false_or] at hrun
  rcases hiaw : engine env fuel s (.iaw i false) with ⟨s1, o⟩
  rw [hiaw] at hrun
  have hs1inj : ∃ inj1, s1.injAt i = some inj1 := by
    have hm := (engine_evolves env fuel s (.iaw i false)).injsMeta i
    rw [hiaw] at hm
    dsimp only at hm
    rw [hinj] at hm
    cases hx : s1.injAt i with
    | none => rw [hx] at hm; exact Option.noConfusion hm
    | some inj1 => exact ⟨inj1, rfl⟩
  obtain ⟨inj1, hinj1⟩ := hs1inj
  cases o with
  | errO e c0 =>
    dsimp only at hrun
    cases hrun
  | okO v0 c0 =>
    dsimp only at hrun
    cases c0 with
    | none =>
      dsimp only at hrun
      injection hrun with hs hout
      injection hout with hv hc
      refine ⟨{ inj1 with inst := some v0 }, ?_, ?_, ?_⟩
      · rw [← hs, injAt_setInst, hinj1]
        rfl
      · show some v0 = some v
        rw [hv]
      · show inj1.clean = c
        rw [← hc, injAt_setInst, hinj1]
        rfl
    | some cid =>
      dsimp only at hrun
      injection hrun with hs hout
      injection hout with hv hc
      have h1 : s'.injAt i = ((setInst s1 i (some v0)).injAt i).map
          (fun inj => { inj with clean := c }) := by
        rw [← hc, ← hs, injAt_setCleanF, injAt_allocClos, injAt_allocO]
      simp only [injAt_setInst, hinj1, Option.map_some'] at h1
      exact ⟨_, h1, congrArg some hv, rfl⟩

/-- C1: for every descriptor registered as a singleton (transient flag
false), once a non-transient, non-dry-run resolution has created and
cached its instance, every later non-transient, non-dry-run resolution of
that descriptor — directly, by name, by concrete type, or by interface —
returns the identical underlying instance and cached cleanup, leaving the
container state (in particular the producer call log) entirely unchanged;
and the resolution that creates the instance is the one that caches it. -/
theorem c1_singleton_cached_reuse (env : Env) (fuel : Nat) (s : St) :
    (∀ i inj v, s.injAt i = some inj → inj.transientF = false →
      inj.inst = some v →
      engine env (fuel + 1) s (.getInj i false false) =
        ⟨s, .okO v inj.clean⟩) ∧
    (∀ nm i inj v, lookupStr s.named nm = some i → s.injAt i = some inj →
      inj.transientF = false → inj.inst = some v →
      engine env (fuel + 2) s (.byName nm false false) =
        ⟨s, .okO v inj.clean⟩) ∧
    (∀ t i inj v, isIfaceTy t = false → lookupTy s.typed t = some i →
      s.injAt i = some inj → inj.transientF = false → inj.inst = some v →
      engine env (fuel + 2) s (.byType t false false) =
        ⟨s, .okO v inj.clean⟩) ∧
    (∀ m p inj v, ifaceMatches env s (.ifaceT m) = [p] →
      s.injAt p.2 = some inj → inj.transientF = false → inj.inst = some v →
      engine env (fuel + 2) s (.byType (.ifaceT m) false false) =
        ⟨s, .okO v inj.clean⟩) ∧
    (∀ i inj v c s', s.injAt i = some inj → inj.transientF = false →
      inj.inst = none →
      engine env (fuel + 1) s (.getInj i false false) = ⟨s', .okO v c⟩ →
      ∃ inj', s'.injAt i = some inj' ∧ inj'.inst = some v ∧
        inj'.clean = c) := by
  refine ⟨?_, ?_, ?_, ?_, ?_⟩
  · intro i inj v hinj hT hinst
    exact get_cached env fuel s i inj v hinj hT hinst
  · intro nm i inj v hlk hinj hT hinst
    rw [engine_succ]
    dsimp only [engineStep]
    simp only [hlk]
    exact get_cached env fuel s i inj v hinj hT hinst
  · intro t i inj v hIf hlk hinj hT hinst
    rw [engine_succ]
    dsimp only [engineStep]
    cases t with
    | ifaceT m => simp [isIfaceTy] at hIf
    | atom n =>
      dsimp only
      simp only [hlk]
      exact get_cached env fuel s i inj v hinj hT hinst
    | namedMap e =>
      dsimp only
      simp only [hlk]
      exact get_cached env fuel s i inj v hinj hT hinst
    | errT =>
      dsimp only
      simp only [hlk]
      exact get_cached env fuel s i inj v hinj hT hinst
    | cleanT =>
      dsimp only
      simp only [hlk]
      exact get_cached env fuel s i inj v hinj hT hinst
  · intro m p inj v hm hinj hT hinst
    rw [engine_succ]
    dsimp only [engineStep]
    simp only [hm]
    exact get_cached env fuel s p.2 inj v hinj hT hinst
  · intro i inj v c s' hinj hT hinst hrun
    exact get_caches env fuel s i inj v c s' hinj hT hinst hrun

/-! Concrete fixture: a container with a named value provider "a" of type
atom 5 and an unnamed value provider of type atom 2, where atom 2
implements interface 7 (method set M). -/

def cEnv : Env :=
  ⟨fun n => if n = 2 then ["M"] else [],
   fun m => if m = 7 then ["M"] else [],
   fun _ => .kother, fun _ => [], fun _ => none⟩

def cS0 : St :=
  match NamedProvider newSt "a" (.valueArg (.prim (.atom 5) 0)) with
  | .okR s => s
  | _ => newSt

def cS1 : St :=
  match namedProvider cS0 "" (.valueArg (.prim (.atom 2) 77)) false with
  | .okR s => s
  | _ => newSt

def cS2 : St := (engine cEnv 10 cS1 (.byName "a" false false)).st

def cS3 : St := (engine cEnv 10 cS2 (.byType (.ifaceT 7) false false)).st

def cInjA : Injector :=
  ⟨.valueP (.prim (.atom 5) 0), some (.prim (.atom 5) 0), some 1, false,
   .atom 5⟩

def cInjB : Injector :=
  ⟨.valueP (.prim (.atom 2) 77), some (.prim (.atom 2) 77), some 3, false,
   .atom 2⟩

def cInjA0 : Injector :=
  ⟨.valueP (.prim (.atom 5) 0), none, none, false, .atom 5⟩

theorem c1_witness :
    cS3.injAt 0 = some cInjA ∧ cInjA.transientF = false ∧
    cInjA.inst = some (.prim (.atom 5) 0) ∧
    lookupStr cS3.named "a" = some 0 ∧
    lookupTy cS3.typed (.atom 2) = some 1 ∧
    ifaceMatches cEnv cS3 (.ifaceT 7) = [(.atom 2, 1)] ∧
    engine cEnv 11 cS3 (.byName "a" false false) =
      ⟨cS3, .okO (.prim (.atom 5) 0) cInjA.clean⟩ ∧
    engine cEnv 11 cS3 (.byType (.atom 2) false false) =
      ⟨cS3, .okO (.prim (.atom 2) 77) cInjB.clean⟩ ∧
    engine cEnv 11 cS3 (.byType (.ifaceT 7) false false) =
      ⟨cS3, .okO (.prim (.atom 2) 77) cInjB.clean⟩ ∧
    cS1.injAt 0 = some cInjA0 ∧ cInjA0.inst = none ∧
    (∃ inj', (engine cEnv 10 cS1 (.getInj 0 false false)).st.injAt 0 =
        some inj' ∧ inj'.inst = some (.prim (.atom 5) 0) ∧
        inj'.clean = some 1) := by
  refine ⟨rfl, rfl, rfl, rfl, rfl, rfl, ?_, ?_, ?_, rfl, rfl, ?_⟩
  · exact (c1_singleton_cached_reuse cEnv 9 cS3).2.1 "a" 0 cInjA
      (.prim (.atom 5) 0) rfl rfl rfl rfl
  · exact (c1_singleton_cached_reuse cEnv 9 cS3).2.2.1 (.atom 2) 1 cInjB
      (.prim (.atom 2) 77) rfl rfl rfl rfl rfl
  · exact (c1_singleton_cached_reuse cEnv 9 cS3).2.2.2.1 7 (.atom 2, 1)
      cInjB (.prim (.atom 2) 77) rfl rfl rfl rfl
  · exact (c1_singleton_cached_reuse cEnv 9 cS1).2.2.2.2 0 cInjA0
      (.prim (.atom 5) 0) (some 1) _ rfl rfl rfl rfl

/-- C4 (code bug): the spec says a factory of any shape other than the
four allowed ones fails with an invalid-shape error at registration time.
In the source the arity guard of validateProviderFunc reads
NumOut() < 1 && NumOut() > 3 — a contradiction, so it rejects nothing: a
zero-result factory passes validation and registration then panics
evaluating t.Out(0), and a four-result factory registers successfully with
the failure deferred to resolution time. -/
theorem c4_provider_arity_guard_dead :
    validateProviderFunc ⟨[], [], 0, 0, true, none⟩ = none ∧
    namedProvider newSt "z" (.funcArg ⟨[], [], 0, 0, true, none⟩) false =
      .panicked ∧
    validateProviderFunc
      ⟨[], [.atom 1, .cleanT, .errT, .errT], 0, 0, true, none⟩ = none ∧
    (∃ s, namedProvider newSt "z"
        (.funcArg ⟨[], [.atom 1, .cleanT, .errT, .errT], 0, 0, true, none⟩)
        false = .okR s) :=
  ⟨rfl, rfl, rfl, ⟨_, rfl⟩⟩

/-- C6 (code bug): the spec says a function target taking at least one
parameter and returning a single error passes Wire validation.  In the
source the single-result check is the Go type assertion t.Out(0).(error),
asserting on the reflect.Type value itself — whose method set has no
Error method — so it never succeeds and every one-result target, error
included, is rejected; zero-parameter and multi-result targets are
rejected as the spec says, and a no-result target passes. -/
theorem c6_error_result_target_rejected :
    typeAssertErrOnReflectType = false ∧
    validateWireFunc ⟨[.atom 1], [.errT], 0, 0, true, none⟩ =
      some (.invalidWireFn 2) ∧
    (∀ t : Ty, validateWireFunc ⟨[.atom 1], [t], 0, 0, true, none⟩ =
      some (.invalidWireFn 2)) ∧
    validateWireFunc ⟨[.atom 1], [], 0, 0, true, none⟩ = none ∧
    validateWireFunc ⟨[], [], 0, 0, true, none⟩ =
      some (.invalidWireFn 0) ∧
    validateWireFunc ⟨[.atom 1], [.errT, .errT], 0, 0, true, none⟩ =
      some (.invalidWireFn 1) ∧
    wire cEnv 10 cS1 (.fnT ⟨[.atom 5], [.errT], 0, 0, true, none⟩) false =
      (cS1, none, some (.invalidWireFn 2)) :=
  ⟨rfl, rfl, fun _ => rfl, rfl, rfl, rfl, rfl⟩

/-! Fixture for the cleanup-order claim: two typed factory providers with
cleanups tagged 10 and 20, and a named provider "e" whose factory takes
both as parameters and has its own cleanup tagged 30. -/

def dEnv : Env :=
  ⟨fun _ => [], fun _ => [], fun _ => .kother, fun _ => [], fun _ => none⟩

def fA : FnVal := ⟨[], [.atom 1, .cleanT], 1, 10, false, none⟩

def fB : FnVal := ⟨[], [.atom 2, .cleanT], 2, 20, false, none⟩

def fE : FnVal := ⟨[.atom 1, .atom 2], [.atom 3, .cleanT], 3, 30, false, none⟩

def dS0 : St :=
  match namedProvider newSt "" (.funcArg fA) false with
  | .okR s => s
  | _ => newSt

def dS1 : St :=
  match namedProvider dS0 "" (.funcArg fB) false with
  | .okR s => s
  | _ => newSt

def dS2 : St :=
  match NamedProvider dS1 "e" (.funcArg fE) with
  | .okR s => s
  | _ => newSt

def dRes : Res := engine dEnv 20 dS2 (.byName "e" false false)

/-- C3 counterexample: resolving "e" acquires the dependency cleanups in
order 10 then 20 and the producer cleanup 30; invoking the composed
cleanup handed back logs [10, 20, 30] — children in acquisition order,
own last — not the reverse-children order [20, 10, 30] the spec
states. -/
theorem c3_counterexample :
    dRes.out = .okO (.prim (.atom 3) 2) (some 14) ∧
    (runClean 20 dRes.st 14).log = [10, 20, 30] ∧
    [10, 20, 30] ≠ [20, 10, 30] :=
  ⟨rfl, rfl, by decide⟩

theorem runClean_base (fuel : Nat) (s : St) (c t : Nat)
    (hc : s.closAt c = some (.base t)) :
    runClean (fuel + 1) s c = { s with log := s.log ++ [t] } := by
  simp only [runClean_succ, hc]

theorem runCleanList_cons (fuel : Nat) (s : St) (c : Nat) (l : List Nat) :
    runCleanList fuel s (c :: l) = runCleanList fuel (runClean fuel s c) l :=
  rfl

theorem runCleanList_base (fuel : Nat) :
    ∀ (l ts : List Nat) (s : St),
    List.Forall₂ (fun c t => s.closAt c = some (.base t)) l ts →
    runCleanList (fuel + 1) s l = { s with log := s.log ++ ts } := by
  intro l
  induction l with
  | nil =>
    intro ts s h
    cases h
    simp [runCleanList]
  | cons c l2 ih =>
    intro ts s h
    cases h with
    | cons hct h2 =>
      rename_i t ts2
      rw [runCleanList_cons, runClean_base fuel s c t hct]
      rw [ih ts2 { s with log := s.log ++ [t] } h2]
      simp

/-- C3 (corrected): the composed cleanup built by funcInjection runs the
dependency cleanups in acquisition order — the cleanDeps loop iterates
the collected slice front to back, so a cleanup acquired first runs
first, not last — and the node's own producer cleanup runs after all of
its children. -/
theorem c3_composed_cleanup_order (fuel : Nat) (s : St)
    (fc dc d ko tw : Nat) (l ts : List Nat)
    (hfc : s.closAt fc = some (.fiClear dc (some ko)))
    (hdc : s.closAt dc = some (.deps d))
    (hl : s.lCellD d = l)
    (hts : List.Forall₂ (fun c t => s.closAt c = some (.base t)) l ts)
    (hko : s.closAt ko = some (.base tw)) :
    (runCleanList (fuel + 1) s l).log = s.log ++ ts ∧
    (runClean (fuel + 3) s fc).log = s.log ++ ts ++ [tw] := by
  constructor
  · rw [runCleanList_base fuel l ts s hts]
  · have hbody : runClean (fuel + 3) s fc =
        runClean (fuel + 2) (runClean (fuel + 2) s dc) ko := by
      simp only [runClean_succ, hfc]
    rw [hbody]
    have hdeps : runClean (fuel + 2) s dc =
        setLCell { s with log := s.log ++ ts } d [] := by
      show runClean (fuel + 1 + 1) s dc = _
      rw [runClean_succ (fuel + 1) s dc, hdc]
      show setLCell
        ((s.lCellD d).foldl (fun acc x => runClean (fuel + 1) acc x) s)
        d [] = _
      rw [hl]
      rw [show List.foldl (fun acc x => runClean (fuel + 1) acc x) s l =
            runCleanList (fuel + 1) s l from rfl]
      rw [runCleanList_base fuel l ts s hts]
    rw [hdeps]
    have hko2 : (setLCell { s with log := s.log ++ ts } d []).closAt ko =
        some (.base tw) := hko
    rw [runClean_base (fuel + 1) _ ko tw hko2]
    simp [setLCell, List.append_assoc]

def wSt3 : St :=
  ⟨[], [], [], [], [[0, 1]],
   [.base 10, .base 20, .deps 0, .base 30, .fiClear 2 (some 3)],
   0, [], [], []⟩

theorem c3_witness :
    wSt3.closAt 4 = some (.fiClear 2 (some 3)) ∧
    wSt3.closAt 2 = some (.deps 0) ∧
    wSt3.lCellD 0 = [0, 1] ∧
    List.Forall₂ (fun c t => wSt3.closAt c = some (.base t))
      [0, 1] [10, 20] ∧
    wSt3.closAt 3 = some (.base 30) ∧
    (runCleanList 1 wSt3 [0, 1]).log = wSt3.log ++ [10, 20] ∧
    (runClean 3 wSt3 4).log = wSt3.log ++ [10, 20] ++ [30] := by
  have h := c3_composed_cleanup_order 0 wSt3 4 2 0 3 30 [0, 1] [10, 20]
    rfl rfl rfl (.cons rfl (.cons rfl .nil)) rfl
  exact ⟨rfl, rfl, rfl, .cons rfl (.cons rfl .nil), rfl, h.1, h.2⟩

/-! Destroy resets both registries after running the cached cleanups. -/

def eS0 : St :=
  match NamedProvider newSt "a" (.funcArg fA) with
  | .okR s => s
  | _ => newSt

def eS1 : St := (engine dEnv 20 eS0 (.byName "a" false false)).st

/-- C10: invoking the cleanup handed back for a singleton (the caching
wrapper closure installed by get) erases that descriptor's cached
instance and cached cleanup while leaving the registries untouched, so
the descriptor stays registered and the next non-transient resolution
re-runs the producer and returns a fresh instance: concretely, after
resolving "a" (one recorded producer call, instance counter 0) and
running its cleanup, resolving "a" again succeeds with a second recorded
producer call and a new instance distinct from the cleaned-up one. -/
theorem c10_cleanup_resets_singleton (fuel : Nat) (s : St) (w cc i : Nat)
    (hw : s.closAt w = some (.singWrap cc i)) :
    (∀ inj, (runClean (fuel + 1) s w).injAt i = some inj →
      inj.inst = none ∧ inj.clean = none) ∧
    (runClean (fuel + 1) s w).named = s.named ∧
    (runClean (fuel + 1) s w).typed = s.typed ∧
    (engine dEnv 20 eS0 (.byName "a" false false)).out =
      .okO (.prim (.atom 1) 0) (some 4) ∧
    eS1.calls = [(1, [])] ∧
    lookupStr (runClean 20 eS1 4).named "a" = some 0 ∧
    (engine dEnv 20 (runClean 20 eS1 4) (.byName "a" false false)).out =
      .okO (.prim (.atom 1) 1) (some 9) ∧
    (engine dEnv 20 (runClean 20 eS1 4) (.byName "a" false false)).st.calls =
      [(1, []), (1, [])] ∧
    Val.prim (.atom 1) 1 ≠ Val.prim (.atom 1) 0 := by
  refine ⟨(runClean_singWrap_post fuel hw).2,
    (runClean_frame (fuel + 1) w s).named,
    (runClean_frame (fuel + 1) w s).typed, rfl, rfl, rfl, rfl, rfl, ?_⟩
  intro h
  injection h with h1 h2
  exact Nat.one_ne_zero h2

theorem c10_witness :
    eS1.closAt 4 = some (.singWrap 2 0) ∧
    (∀ inj, (runClean 20 eS1 4).injAt 0 = some inj →
      inj.inst = none ∧ inj.clean = none) ∧
    (runClean 20 eS1 4).named = eS1.named := by
  have h := c10_cleanup_resets_singleton 19 eS1 4 2 0 rfl
  exact ⟨rfl, h.1, h.2.1⟩

/-! Dry-run purity at the DryRun API level. -/

theorem dryRun_pure (env : Env) (fuel : Nat) (s : St) (tgt : Tgt) :
    (dryRun env fuel s tgt).1.injs = s.injs ∧
    (dryRun env fuel s tgt).1.named = s.named ∧
    (dryRun env fuel s tgt).1.typed = s.typed ∧
    (dryRun env fuel s tgt).1.calls = s.calls := by
  unfold dryRun wire
  cases tgt with
  | badT => exact ⟨rfl, rfl, rfl, rfl⟩
  | fnT f =>
    dsimp only
    cases hv : validateWireFunc f with
    | some e => simp [hv]
    | none =>
      simp only [hv]
      obtain ⟨h1, h2, _⟩ := engine_dry env fuel s (.fi f true) rfl
      have hn := (engine_evolves env fuel s (.fi f true)).named
      have ht := (engine_evolves env fuel s (.fi f true)).typed
      cases hr : engine env fuel s (.fi f true) with
      | mk s1 out =>
        rw [hr] at h1 h2 hn ht
        cases out with
        | okO v c => exact ⟨h1, hn, ht, h2⟩
        | errO e c => exact ⟨h1, hn, ht, h2⟩
  | ptrT sid =>
    dsimp only
    obtain ⟨h1, h2, _⟩ := engine_dry env fuel s (.wf sid true) rfl
    have hn := (engine_evolves env fuel s (.wf sid true)).named
    have ht := (engine_evolves env fuel s (.wf sid true)).typed
    cases hr : engine env fuel s (.wf sid true) with
    | mk s1 out =>
      rw [hr] at h1 h2 hn ht
      cases out with
      | okO v c => exact ⟨h1, hn, ht, h2⟩
      | errO e c => exact ⟨h1, hn, ht, h2⟩

/-- C5: dry-run resolution is pure with respect to the container: any
engine request with the dry flag set, and any DryRun call on any target,
leaves the injector heap (in particular every cached instance and cached
cleanup), both registries, and the producer-invocation log unchanged —
so no producer body runs and no side-effect counter moves — and the same
holds for any number of iterated dry runs. -/
theorem c5_dry_run_pure (env : Env) (fuel : Nat) (s : St) :
    (∀ req, req.dryFlag = true →
      (engine env fuel s req).st.injs = s.injs ∧
      (engine env fuel s req).st.named = s.named ∧
      (engine env fuel s req).st.typed = s.typed ∧
      (engine env fuel s req).st.calls = s.calls) ∧
    (∀ tgt, (dryRun env fuel s tgt).1.injs = s.injs ∧
      (dryRun env fuel s tgt).1.named = s.named ∧
      (dryRun env fuel s tgt).1.typed = s.typed ∧
      (dryRun env fuel s tgt).1.calls = s.calls) ∧
    (∀ tgt n,
      ((fun st => (dryRun env fuel st tgt).1)^[n] s).injs = s.injs ∧
      ((fun st => (dryRun env fuel st tgt).1)^[n] s).named = s.named ∧
      ((fun st => (dryRun env fuel st tgt).1)^[n] s).typed = s.typed ∧
      ((fun st => (dryRun env fuel st tgt).1)^[n] s).calls = s.calls) := by
  refine ⟨?_, fun tgt => dryRun_pure env fuel s tgt, ?_⟩
  · intro req hdry
    obtain ⟨h1, h2, _⟩ := engine_dry env fuel s req hdry
    exact ⟨h1, (engine_evolves env fuel s req).named,
      (engine_evolves env fuel s req).typed, h2⟩
  · intro tgt n
    induction n generalizing s with
    | zero => exact ⟨rfl, rfl, rfl, rfl⟩
    | succ n ih =>
      rw [Function.iterate_succ_apply]
      obtain ⟨k1, k2, k3, k4⟩ := ih (dryRun env fuel s tgt).1
      obtain ⟨p1, p2, p3, p4⟩ := dryRun_pure env fuel s tgt
      exact ⟨k1.trans p1, k2.trans p2, k3.trans p3, k4.trans p4⟩

theorem c5_witness :
    (Req.byName "e" false true).dryFlag = true ∧
    (engine dEnv 20 dS2 (.byName "e" false true)).st.calls = dS2.calls ∧
    (engine dEnv 20 dS2 (.byName "e" false true)).st.injs = dS2.injs ∧
    (dryRun dEnv 20 dS2
      (.fnT ⟨[.atom 1, .atom 2], [], 4, 0, true, none⟩)).1.calls =
      dS2.calls ∧
    ((fun st => (dryRun dEnv 20 st
        (.fnT ⟨[.atom 1, .atom 2], [], 4, 0, true, none⟩)).1)^[3] dS2).calls =
      dS2.calls := by
  have h := c5_dry_run_pure dEnv 20 dS2
  exact ⟨rfl, (h.1 (.byName "e" false true) rfl).2.2.2,
    (h.1 (.byName "e" false true) rfl).1,
    (h.2.1 (.fnT ⟨[.atom 1, .atom 2], [], 4, 0, true, none⟩)).2.2.2,
    (h.2.2 (.fnT ⟨[.atom 1, .atom 2], [], 4, 0, true, none⟩) 3).2.2.2⟩

/-- C7: resolving by an interface type scans the type-keyed registry for
produced types implementing the interface: with zero matches it fails
with an error the ErrProviderNotFound sentinel identifies; with exactly
one match it delegates to that descriptor's get (returning its
instance); with two or more matches it fails with an error the
ErrMultipleProvidersFound sentinel identifies. -/
theorem c7_interface_resolution (env : Env) (fuel : Nat) (s : St) (m : Nat)
    (tr dry : Bool) :
    (ifaceMatches env s (.ifaceT m) = [] →
      engine env (fuel + 1) s (.byType (.ifaceT m) tr dry) =
        ⟨s, .errO (.notFoundIface (.ifaceT m)) none⟩ ∧
      Err.isNotFound (.notFoundIface (.ifaceT m)) = true) ∧
    (∀ p, ifaceMatches env s (.ifaceT m) = [p] →
      engine env (fuel + 1) s (.byType (.ifaceT m) tr dry) =
        engine env fuel s (.getInj p.2 tr dry)) ∧
    (∀ p q rest, ifaceMatches env s (.ifaceT m) = p :: q :: rest →
      engine env (fuel + 1) s (.byType (.ifaceT m) tr dry) =
        ⟨s, .errO (.multipleFound (.ifaceT m)) none⟩ ∧
      Err.isMultiple (.multipleFound (.ifaceT m)) = true) := by
  refine ⟨?_, ?_, ?_⟩
  · intro h
    refine ⟨?_, rfl⟩
    rw [engine_succ]
    dsimp only [engineStep]
    simp only [h]
  · intro p h
    rw [engine_succ]
    dsimp only [engineStep]
    simp only [h]
  · intro p q rest h
    refine ⟨?_, rfl⟩
    rw [engine_succ]
    dsimp only [engineStep]
    simp only [h]

def gEnv : Env :=
  ⟨fun n => if n = 2 ∨ n = 3 then ["M"] else [],
   fun m => if m = 7 then ["M"] else [],
   fun _ => .kother, fun _ => [], fun _ => none⟩

def gS0 : St :=
  match namedProvider newSt "" (.valueArg (.prim (.atom 2) 0)) false with
  | .okR s => s
  | _ => newSt

def gS : St :=
  match namedProvider gS0 "" (.valueArg (.prim (.atom 3) 0)) false with
  | .okR s => s
  | _ => newSt

theorem c7_witness :
    ifaceMatches cEnv cS0 (.ifaceT 7) = [] ∧
    engine cEnv 10 cS0 (.byType (.ifaceT 7) false false) =
      ⟨cS0, .errO (.notFoundIface (.ifaceT 7)) none⟩ ∧
    Err.isNotFound (.notFoundIface (.ifaceT 7)) = true ∧
    ifaceMatches cEnv cS3 (.ifaceT 7) = [(.atom 2, 1)] ∧
    engine cEnv 10 cS3 (.byType (.ifaceT 7) false false) =
      engine cEnv 9 cS3 (.getInj 1 false false) ∧
    ifaceMatches gEnv gS (.ifaceT 7) = [(.atom 2, 0), (.atom 3, 1)] ∧
    engine gEnv 10 gS (.byType (.ifaceT 7) false false) =
      ⟨gS, .errO (.multipleFound (.ifaceT 7)) none⟩ ∧
    Err.isMultiple (.multipleFound (.ifaceT 7)) = true := by
  have h0 := c7_interface_resolution cEnv 9 cS0 7 false false
  have h1 := c7_interface_resolution cEnv 9 cS3 7 false false
  have h2 := c7_interface_resolution gEnv 9 gS 7 false false
  exact ⟨rfl, (h0.1 rfl).1, (h0.1 rfl).2, rfl,
    h1.2.1 (.atom 2, 1) rfl, rfl,
    (h2.2.2 (.atom 2, 0) (.atom 3, 1) [] rfl).1,
    (h2.2.2 (.atom 2, 0) (.atom 3, 1) [] rfl).2⟩

/-! The named-collection aggregation delivers exactly the matching keys. -/

def aggKeys (env : Env) (s : St) (elemT : Ty) (l : List (String × Nat)) :
    List String :=
  (l.filter (fun p =>
    match s.injAt p.2 with
    | some inj => matchesElem env elemT inj.typ
    | none => false)).map Prod.fst

theorem aggKeys_evolves (env : Env) (elemT : Ty) {s s2 : St}
    (h : Evolves s s2) (l : List (String × Nat)) :
    aggKeys env s2 elemT l = aggKeys env s elemT l := by
  unfold aggKeys
  congr 1
  apply List.filter_congr
  intro p hp
  cases hs : s.injAt p.2 with
  | none =>
    cases hs2 : s2.injAt p.2 with
    | none => rfl
    | some inj2 =>
      have hm := h.injsMeta p.2
      rw [hs, hs2] at hm
      simp at hm
  | some inj =>
    cases hs2 : s2.injAt p.2 with
    | none =>
      have hm := h.injsMeta p.2
      rw [hs, hs2] at hm
      simp at hm
    | some inj2 =>
      have hm := h.injsMeta p.2
      rw [hs, hs2] at hm
      simp only [Option.map_some', Option.some.injEq, injMeta,
        Prod.mk.injEq] at hm
      exact (by rw [hm.2.2] :
        matchesElem env elemT inj2.typ = matchesElem env elemT inj.typ)

theorem aggLoop_keys (env : Env) (elemT : Ty) (kn : St → String → Res)
    (hev : ∀ s nm, Evolves s (kn s nm).st) :
    ∀ (l : List (String × Nat)) (s : St) (pairs : List (String × Val))
      (cls : List Nat) (r : LoopRes (List (String × Val)))
      (pairs1 : List (String × Val)),
    aggLoop kn env elemT s l pairs cls = r → r.out = .lok pairs1 →
    pairs1.map Prod.fst = pairs.map Prod.fst ++ aggKeys env s elemT l := by
  intro l
  induction l with
  | nil =>
    intro s pairs cls r pairs1 h hout
    rw [← h] at hout
    dsimp only [aggLoop] at hout
    injection hout with h1
    subst h1
    simp [aggKeys]
  | cons p rest ih =>
    intro s pairs cls r pairs1 h hout
    obtain ⟨nm, i⟩ := p
    dsimp only [aggLoop] at h
    cases hinj : s.injAt i with
    | none =>
      rw [hinj] at h
      dsimp only at h
      rw [ih s pairs cls r pairs1 h hout]
      simp [aggKeys, hinj]
    | some inj =>
      rw [hinj] at h
      dsimp only at h
      by_cases hb : matchesElem env elemT inj.typ = true
      · rw [if_pos hb] at h
        have hevk := hev s nm
        cases hk : kn s nm with
        | mk s2 out =>
          rw [hk] at h hevk
          cases out with
          | errO e c =>
            dsimp only at h
            rw [← h] at hout
            dsimp only at hout
            cases hout
          | okO v c =>
            dsimp only at h
            rw [ih s2 (pairs ++ [(nm, v)]) _ r pairs1 h hout]
            rw [aggKeys_evolves env elemT hevk rest]
            simp [aggKeys, hinj, hb]
      · rw [if_neg hb] at h
        rw [ih s pairs cls r pairs1 h hout]
        have hm : matchesElem env elemT inj.typ = false := by
          cases hx : matchesElem env elemT inj.typ
          · rfl
          · exact absurd hx hb
        simp [aggKeys, hinj, hm]
/-- C8: for a wired function whose single parameter is a map keyed by
Named with element type T, the aggregation walks the named registry and
keeps exactly the descriptors whose produced type matches T (equal to T,
or implementing T when T is an interface): the keys of the map passed to
the function are exactly the matching names in registry order, the
function is invoked with that map as its only argument, and when no named
descriptor matches, the wiring call fails with a not-found sentinel error
instead of passing an empty map. -/
theorem c8_named_map_aggregation (env : Env) (fuel : Nat) (s : St)
    (elemT : Ty) (tag : Nat) (s1 : St) (cls : List Nat)
    (pairs : List (String × Val))
    (hagg : aggLoop (fun s2 nm => engine env fuel s2 (.byName nm false false))
        env elemT s s.named [] [] = ⟨s1, cls, .lok pairs⟩) :
    pairs.map Prod.fst = aggKeys env s elemT s.named ∧
    (pairs = [] →
      engine env (fuel + 1) s
          (.fi ⟨[.namedMap elemT], [], tag, 0, true, none⟩ false) =
        ⟨runCleanList fuel s1 cls, .errO .notFoundNamedAgg none⟩ ∧
      Err.isNotFound .notFoundNamedAgg = true) ∧
    (pairs ≠ [] →
      (engine env (fuel + 1) s
          (.fi ⟨[.namedMap elemT], [], tag, 0, true, none⟩ false)).st.calls =
        s1.calls ++ [(tag, [.vmap pairs])] ∧
      ∃ c, (engine env (fuel + 1) s
          (.fi ⟨[.namedMap elemT], [], tag, 0, true, none⟩ false)).out =
        .okO .vnil c) := by
  have hkeys : pairs.map Prod.fst = aggKeys env s elemT s.named := by
    have h := aggLoop_keys env elemT
      (fun s2 nm => engine env fuel s2 (.byName nm false false))
      (fun s2 nm => engine_evolves env fuel s2 (.byName nm false false))
      s.named s [] [] ⟨s1, cls, .lok pairs⟩ pairs hagg rfl
    simpa using h
  refine ⟨hkeys, ?_, ?_⟩
  · intro hemp
    subst hemp
    refine ⟨?_, rfl⟩
    rw [engine_succ]
    dsimp only [engineStep]
    have hal : argsLoop
        (fun s2 nm => engine env fuel s2 (.byName nm false false))
        (fun s2 t => engine env fuel s2 (.byType t false false)) env s
        [.namedMap elemT] [] [] = ⟨s1, cls, .lerr .notFoundNamedAgg⟩ := by
      dsimp only [argsLoop]
      rw [hagg]
      rfl
    rw [hal]
  · intro hne
    have hemp : pairs.isEmpty = false := by
      cases pairs
      · exact absurd rfl hne
      · rfl
    have hal : argsLoop
        (fun s2 nm => engine env fuel s2 (.byName nm false false))
        (fun s2 t => engine env fuel s2 (.byType t false false)) env s
        [.namedMap elemT] [] [] = ⟨s1, cls, .lok [.vmap pairs]⟩ := by
      dsimp only [argsLoop]
      rw [hagg]
      simp only [hemp, Bool.false_eq_true, if_false]
      rfl
    constructor
    · rw [engine_succ]
      dsimp only [engineStep]
      rw [hal]
      rfl
    · apply Exists.intro
      rw [engine_succ]
      dsimp only [engineStep]
      rw [hal]
      rfl

def hS0 : St :=
  match NamedProvider newSt "x" (.valueArg (.prim (.atom 2) 0)) with
  | .okR s => s
  | _ => newSt

def hS1 : St :=
  match NamedProvider hS0 "y" (.valueArg (.prim (.atom 3) 0)) with
  | .okR s => s
  | _ => newSt

def hS2 : St :=
  match NamedProvider hS1 "z" (.valueArg (.prim (.atom 4) 0)) with
  | .okR s => s
  | _ => newSt

def hSz : St :=
  match NamedProvider newSt "z" (.valueArg (.prim (.atom 4) 0)) with
  | .okR s => s
  | _ => newSt

def aggOf (st : St) : LoopRes (List (String × Val)) :=
  aggLoop (fun s2 nm => engine gEnv 20 s2 (.byName nm false false)) gEnv
    (.ifaceT 7) st st.named [] []

theorem c8_witness :
    ([("x", Val.prim (.atom 2) 0), ("y", Val.prim (.atom 3) 0)].map
        Prod.fst =
      aggKeys gEnv hS2 (.ifaceT 7) hS2.named) ∧
    aggKeys gEnv hS2 (.ifaceT 7) hS2.named = ["x", "y"] ∧
    (engine gEnv 21 hS2
        (.fi ⟨[.namedMap (.ifaceT 7)], [], 9, 0, true, none⟩ false)).st.calls =
      (aggOf hS2).st.calls ++
        [(9, [Val.vmap [("x", Val.prim (.atom 2) 0),
                        ("y", Val.prim (.atom 3) 0)]])] ∧
    (∃ c, (engine gEnv 21 hS2
        (.fi ⟨[.namedMap (.ifaceT 7)], [], 9, 0, true, none⟩ false)).out =
      .okO .vnil c) ∧
    engine gEnv 21 hSz
        (.fi ⟨[.namedMap (.ifaceT 7)], [], 9, 0, true, none⟩ false) =
      ⟨runCleanList 20 (aggOf hSz).st (aggOf hSz).cleans,
        .errO .notFoundNamedAgg none⟩ ∧
    Err.isNotFound .notFoundNamedAgg = true := by
  have h1 := c8_named_map_aggregation gEnv 20 hS2 (.ifaceT 7) 9
    (aggOf hS2).st (aggOf hS2).cleans
    [("x", Val.prim (.atom 2) 0), ("y", Val.prim (.atom 3) 0)] rfl
  have h2 := c8_named_map_aggregation gEnv 20 hSz (.ifaceT 7) 9
    (aggOf hSz).st (aggOf hSz).cleans [] rfl
  exact ⟨h1.1, rfl,
    (h1.2.2 (List.cons_ne_nil _ _)).1,
    (h1.2.2 (List.cons_ne_nil _ _)).2,
    (h2.2.1 rfl).1, (h2.2.1 rfl).2⟩

/-! ## Well-formed handed cleanups: every cached cleanup of an injector is
the caching wrapper closure, so everything the engine hands back is one of
the composed shapes whose second invocation is a no-op. -/

def WFH (s : St) : Prop :=
  ∀ i inj c, s.injAt i = some inj → inj.clean = some c →
    ∃ cc j, s.closAt c = some (.singWrap cc j)

theorem WFH_transfer {s s2 : St}
    (hinj : ∀ j, s2.injAt j = s.injAt j)
    (hclos : ∀ c k, s.closAt c = some k → s2.closAt c = some k)
    (hw : WFH s) : WFH s2 := by
  intro i inj c hi hc
  obtain ⟨cc, j, h⟩ := hw i inj c (by rw [← hinj i]; exact hi) hc
  exact ⟨cc, j, hclos c _ h⟩

theorem WFH_evolves_injEq {s s2 : St} (he : Evolves s s2)
    (hinj : ∀ j, s2.injAt j = s.injAt j) (hw : WFH s) : WFH s2 :=
  WFH_transfer hinj (fun c k hk => closAt_evolves he hk) hw

theorem WFH_rcframe {s s2 : St} (h : RCFrame s s2) (hw : WFH s) : WFH s2 := by
  intro i inj c hi hc
  have hr := h.injs i
  cases hs : s.injAt i with
  | none => rw [hs, hi] at hr; exact hr.elim
  | some inj0 =>
    rw [hs, hi] at hr
    cases hr.clean with
    | inl he =>
      have hc0 : inj0.clean = some c := by rw [← he]; exact hc
      obtain ⟨cc, j, hcl⟩ := hw i inj0 c hs hc0
      refine ⟨cc, j, ?_⟩
      show s2.clos.get? c = _
      rw [h.clos]
      exact hcl
    | inr he => rw [he] at hc; cases hc

theorem WFH_setInst (s : St) (i : Nat) (v : Option Val) (hw : WFH s) :
    WFH (setInst s i v) := by
  intro j inj c hj hc
  by_cases hij : i = j
  · subst hij
    rw [injAt_setInst] at hj
    cases hs : s.injAt i with
    | none => rw [hs] at hj; cases hj
    | some inj0 =>
      rw [hs] at hj
      injection hj with hj1
      rw [← hj1] at hc
      exact hw i inj0 c hs hc
  · have hne : (setInst s i v).injAt j = s.injAt j :=
      listModify_get?_other s.injs hij _
    rw [hne] at hj
    exact hw j inj c hj hc

theorem WFH_setCleanF_sw (s : St) (i w : Nat)
    (hsw : ∃ cc j, s.closAt w = some (.singWrap cc j)) (hw : WFH s) :
    WFH (setCleanF s i (some w)) := by
  intro j inj c hj hc
  by_cases hij : i = j
  · subst hij
    rw [injAt_setCleanF] at hj
    cases hs : s.injAt i with
    | none => rw [hs] at hj; cases hj
    | some inj0 =>
      rw [hs] at hj
      injection hj with hj1
      rw [← hj1] at hc
      have hcw : w = c := by injection hc
      rw [← hcw]
      exact hsw
  · have hne : (setCleanF s i (some w)).injAt j = s.injAt j :=
      listModify_get?_other s.injs hij _
    rw [hne] at hj
    exact hw j inj c hj hc

theorem callOuts_injs (f : FnVal) : ∀ (ts : List Ty) (s : St) (i : Nat),
    (callOuts f s i ts).1.injs = s.injs := by
  intro ts
  induction ts with
  | nil => intro s i; rfl
  | cons t rest ih =>
    intro s i
    show (callOuts f _ (i + 1) rest).1.injs = s.injs
    rw [ih]
    split
    · split
      · rfl
      · rfl
    · split
      · rfl
      · rfl

theorem callFn_injAt (s : St) (f : FnVal) (argv : List Val) (j : Nat) :
    (callFn s f argv).1.injAt j = s.injAt j := by
  show (callFn s f argv).1.injs.get? j = s.injs.get? j
  unfold callFn
  rw [callOuts_injs]

theorem finishIaw_handedOut (s : St) (v : Val) (c1 c2 : Option Nat) :
    ∃ a b, (finishIaw s v c1 c2).out =
      .okO v (some (allocClos (allocO (allocO s c1).1 c2).1
        (.iawC (allocO s c1).2 (allocO (allocO s c1).1 c2).2)).2) ∧
      (finishIaw s v c1 c2).st.closAt
        (allocClos (allocO (allocO s c1).1 c2).1
          (.iawC (allocO s c1).2 (allocO (allocO s c1).1 c2).2)).2 =
        some (.iawC a b) :=
  ⟨(allocO s c1).2, (allocO (allocO s c1).1 c2).2, rfl, allocClos_self _ _⟩

theorem mkDepsClean_handed (s : St) (cls : List Nat) :
    (mkDepsClean s cls).1.closAt (mkDepsClean s cls).2 =
      some (.deps (allocL s cls).2) :=
  allocClos_self _ _

theorem mkAwClean_handed (s : St) (cls : List Nat) (own : Option Nat) :
    (mkAwClean s cls own).1.closAt (mkAwClean s cls own).2.1 =
      some (.awClear (mkAwClean s cls own).2.2 (allocO s own).2) ∧
    (mkAwClean s cls own).1.closAt (mkAwClean s cls own).2.2 =
      some (.deps (allocL (allocO s own).1 cls).2) := by
  constructor
  · exact allocClos_self _ _
  · exact closAt_evolves (evolves_allocClos _ _) (mkDepsClean_handed _ cls)

theorem aggLoop_WFH (env : Env) (elemT : Ty) (kn : St → String → Res)
    (hk : ∀ s nm, WFH s → WFH (kn s nm).st) :
    ∀ (l : List (String × Nat)) (s : St) (pairs : List (String × Val))
      (cls : List Nat), WFH s →
      WFH (aggLoop kn env elemT s l pairs cls).st := by
  intro l
  induction l with
  | nil => intro s pairs cls hw; exact hw
  | cons p rest ih =>
    intro s pairs cls hw
    obtain ⟨nm, i⟩ := p
    dsimp only [aggLoop]
    split
    · exact ih s pairs cls hw
    · split
      · split
        · next s1 e c heq =>
          have h1 := hk s nm hw
          rw [heq] at h1
          exact h1
        · next s1 v c heq =>
          have h1 := hk s nm hw
          rw [heq] at h1
          exact ih s1 _ _ h1
      · exact ih s pairs cls hw

theorem argsLoop_WFH (kn : St → String → Res) (kt : St → Ty → Res)
    (env : Env) (hkn : ∀ s nm, WFH s → WFH (kn s nm).st)
    (hkt : ∀ s t, WFH s → WFH (kt s t).st) :
    ∀ (ats : List Ty) (s : St) (argv : List Val) (cls : List Nat), WFH s →
      WFH (argsLoop kn kt env s ats argv cls).st := by
  intro ats
  induction ats with
  | nil => intro s argv cls hw; exact hw
  | cons at0 rest ih =>
    intro s argv cls hw
    dsimp only [argsLoop]
    split
    · next elemT =>
      have hagg := aggLoop_WFH env elemT kn hkn s.named s [] cls hw
      split
      · next s1 cls1 e heq =>
        rw [heq] at hagg
        exact hagg
      · next s1 cls1 pairs heq =>
        rw [heq] at hagg
        split
        · exact hagg
        · exact ih s1 _ _ hagg
    · split
      · next s1 e c heq =>
        have h1 := hkt s at0 hw
        rw [heq] at h1
        exact h1
      · next s1 v c heq =>
        have h1 := hkt s at0 hw
        rw [heq] at h1
        exact ih s1 _ _ h1

theorem wfLoop_WFH (kn : St → String → Bool → Res)
    (kt : St → Ty → Bool → Res)
    (hkn : ∀ s nm tr, WFH s → WFH (kn s nm tr).st)
    (hkt : ∀ s t tr, WFH s → WFH (kt s t tr).st) :
    ∀ (fds : List FieldSpec) (s : St) (cls : List Nat), WFH s →
      WFH (wfLoop kn kt s fds cls).st := by
  intro fds
  induction fds with
  | nil => intro s cls hw; exact hw
  | cons fd rest ih =>
    intro s cls hw
    dsimp only [wfLoop]
    split
    · exact ih s cls hw
    · next payload hpl =>
      have hres : ∀ r : Res,
          (if (payload.splitOn ",").headD "" = ""
            then kt s fd.ftype ((payload.splitOn ",").any
              (fun x => x == "transient"))
            else kn s ((payload.splitOn ",").headD "")
              ((payload.splitOn ",").any (fun x => x == "transient"))) = r →
          WFH r.st := by
        intro r hr
        by_cases hnm : (payload.splitOn ",").headD "" = ""
        · rw [if_pos hnm] at hr
          have h2 := hkt s fd.ftype
            ((payload.splitOn ",").any (fun x => x == "transient")) hw
          rw [hr] at h2
          exact h2
        · rw [if_neg hnm] at hr
          have h2 := hkn s ((payload.splitOn ",").headD "")
            ((payload.splitOn ",").any (fun x => x == "transient")) hw
          rw [hr] at h2
          exact h2
      split
      · next s1 e c heq => exact hres ⟨s1, .errO e c⟩ heq
      · next s1 v c heq => exact ih s1 _ (hres ⟨s1, .okO v c⟩ heq)

/-- Requests whose successful output hands a cleanup of composed shape to
the API caller (funcInjection's fiClear cleanup never escapes: wire
discards it and instantiateAndWire stores it in a cell). -/
theorem mkAwClean_handedClos (s : St) (cls : List Nat) (own : Option Nat) :
    HandedClos (mkAwClean s cls own).1 (mkAwClean s cls own).2.1 :=
  Or.inr (Or.inr (Or.inr ⟨_, _, _, (mkAwClean_handed s cls own).1,
    (mkAwClean_handed s cls own).2⟩))

theorem mkAwClean_handedClos_run (rc : Nat) (s : St) (cls : List Nat)
    (own : Option Nat) :
    HandedClos (runClean rc (mkAwClean s cls own).1
      (mkAwClean s cls own).2.2) (mkAwClean s cls own).2.1 := by
  have h1 : (runClean rc (mkAwClean s cls own).1
      (mkAwClean s cls own).2.2).closAt (mkAwClean s cls own).2.1 =
      some (.awClear (mkAwClean s cls own).2.2 (allocO s own).2) := by
    rw [runClean_closAt]
    exact (mkAwClean_handed s cls own).1
  have h2 : (runClean rc (mkAwClean s cls own).1
      (mkAwClean s cls own).2.2).closAt (mkAwClean s cls own).2.2 =
      some (.deps (allocL (allocO s own).1 cls).2) := by
    rw [runClean_closAt]
    exact (mkAwClean_handed s cls own).2
  exact Or.inr (Or.inr (Or.inr ⟨_, _, _, h1, h2⟩))

def Req.handedReq : Req → Prop
  | .fi _ _ => False
  | _ => True

theorem engineStep_handed (env : Env) (rc : Nat) (rec : St → Req → Res)
    (hrecW : ∀ s r, WFH s → WFH (rec s r).st)
    (hrecH : ∀ s r v c, WFH s → Req.handedReq r →
      (rec s r).out = .okO v (some c) → HandedClos (rec s r).st c)
    (hrecHE : ∀ s r e c, WFH s →
      (rec s r).out = .errO e (some c) → HandedClos (rec s r).st c)
    (s : St) (req : Req) (hw : WFH s) :
    WFH (engineStep env rc rec s req).st ∧
    (∀ v c, Req.handedReq req →
      (engineStep env rc rec s req).out = .okO v (some c) →
      HandedClos (engineStep env rc rec s req).st c) ∧
    (∀ e c, (engineStep env rc rec s req).out = .errO e (some c) →
      HandedClos (engineStep env rc rec s req).st c) := by
  cases req with
  | byName nm tr dry =>
    dsimp only [engineStep]
    split
    · exact ⟨hw, fun v c _ h => by simp at h, fun e c h => by simp at h⟩
    · exact ⟨hrecW s _ hw, fun v c _ h => hrecH s _ v c hw trivial h,
        fun e c h => hrecHE s _ e c hw h⟩
  | byType t tr dry =>
    dsimp only [engineStep]
    split
    · split
      · exact ⟨hrecW s _ hw, fun v c _ h => hrecH s _ v c hw trivial h,
          fun e c h => hrecHE s _ e c hw h⟩
      · exact ⟨hw, fun v c _ h => by simp at h, fun e c h => by simp at h⟩
      · exact ⟨hw, fun v c _ h => by simp at h, fun e c h => by simp at h⟩
    · split
      · exact ⟨hw, fun v c _ h => by simp at h, fun e c h => by simp at h⟩
      · exact ⟨hrecW s _ hw, fun v c _ h => hrecH s _ v c hw trivial h,
          fun e c h => hrecHE s _ e c hw h⟩
  | getInj i tr dry =>
    dsimp only [engineStep]
    split
    · exact ⟨hw, fun v c _ h => by simp at h, fun e c h => by simp at h⟩
    · next inj hinj =>
      split
      · exact ⟨hrecW s _ hw, fun v c _ h => hrecH s _ v c hw trivial h,
          fun e c h => hrecHE s _ e c hw h⟩
      · split
        · next v hinst =>
          refine ⟨hw, ?_, fun e c h => by simp at h⟩
          intro v2 c _ h
          simp only [EOut.okO.injEq] at h
          exact Or.inl (hw i inj c hinj h.2)
        · split
          · next s1 e0 c0 heq =>
            have hw1 : WFH s1 := by
              have h2 := hrecW s (.iaw i dry) hw
              rw [heq] at h2
              exact h2
            exact ⟨hw1, fun v c _ h => by simp at h,
              fun e c h => by simp at h⟩
          · next s1 v c1 heq =>
            have hw1 : WFH s1 := by
              have h2 := hrecW s (.iaw i dry) hw
              rw [heq] at h2
              exact h2
            split
            · refine ⟨WFH_setInst s1 i (some v) hw1, ?_,
                fun e c h => by simp at h⟩
              intro v2 c _ h
              simp only [EOut.okO.injEq] at h
              have h2 := h.2
              cases hs2 : (setInst s1 i (some v)).injAt i with
              | none => rw [hs2] at h2; cases h2
              | some inj2 =>
                rw [hs2] at h2
                simp only [Option.some_bind] at h2
                exact Or.inl (WFH_setInst s1 i (some v) hw1 i inj2 c hs2 h2)
            · next cid =>
              have hwA : WFH (allocO (setInst s1 i (some v)) (some cid)).1 :=
                WFH_evolves_injEq (evolves_allocO _ _) (fun j => rfl)
                  (WFH_setInst s1 i (some v) hw1)
              have hwB : WFH (allocClos
                  (allocO (setInst s1 i (some v)) (some cid)).1
                  (.singWrap (allocO (setInst s1 i (some v)) (some cid)).2
                    i)).1 :=
                WFH_evolves_injEq (evolves_allocClos _ _) (fun j => rfl) hwA
              have hswB := allocClos_self
                (allocO (setInst s1 i (some v)) (some cid)).1
                (.singWrap (allocO (setInst s1 i (some v)) (some cid)).2 i)
              refine ⟨WFH_setCleanF_sw _ i _
                ⟨(allocO (setInst s1 i (some v)) (some cid)).2, i, hswB⟩
                hwB, ?_, fun e c h => by simp at h⟩
              intro v2 c _ h
              simp only [EOut.okO.injEq, Option.some.injEq] at h
              have h2 := h.2
              subst h2
              exact Or.inl
                ⟨(allocO (setInst s1 i (some v)) (some cid)).2, i, hswB⟩
  | iaw i dry =>
    dsimp only [engineStep]
    split
    · exact ⟨hw, fun v c _ h => by simp at h, fun e c h => by simp at h⟩
    · next inj hinj =>
      split
      · next s1 e0 c0 heq =>
        have hw1 : WFH s1 := by
          cases hp : inj.prov with
          | valueP w => rw [hp] at heq; dsimp only at heq; cases heq
          | funcP f =>
            rw [hp] at heq
            dsimp only at heq
            have h2 := hrecW s (.fi f dry) hw
            rw [heq] at h2
            exact h2
        exact ⟨hw1, fun v c _ h => by simp at h, fun e c h => by simp at h⟩
      · next s1 v c1 heq =>
        have hw1 : WFH s1 := by
          cases hp : inj.prov with
          | valueP w =>
            rw [hp] at heq
            dsimp only at heq
            cases heq
            exact hw
          | funcP f =>
            rw [hp] at heq
            dsimp only at heq
            have h2 := hrecW s (.fi f dry) hw
            rw [heq] at h2
            exact h2
        split
        · refine ⟨WFH_evolves_injEq (evolves_finishIaw s1 v c1 none)
            (fun j => rfl) hw1, ?_, fun e c h => by simp [finishIaw] at h⟩
          intro v2 c _ h
          obtain ⟨a, b, hout, hcl⟩ := finishIaw_handedOut s1 v c1 none
          rw [hout] at h
          simp only [EOut.okO.injEq, Option.some.injEq] at h
          have h2 := h.2
          subst h2
          exact Or.inr (Or.inl ⟨a, b, hcl⟩)
        · next sid hsid =>
          split
          · next s2 e0 c0 heq2 =>
            have hw2 : WFH s2 := by
              have h2 := hrecW s1 (.wf sid dry) hw1
              rw [heq2] at h2
              exact h2
            exact ⟨hw2, fun v2 c _ h => by simp at h,
              fun e c h => by simp at h⟩
          · next s2 w c2 heq2 =>
            have hw2 : WFH s2 := by
              have h2 := hrecW s1 (.wf sid dry) hw1
              rw [heq2] at h2
              exact h2
            refine ⟨WFH_evolves_injEq (evolves_finishIaw s2 v c1 c2)
              (fun j => rfl) hw2, ?_, fun e c h => by simp [finishIaw] at h⟩
            intro v2 c _ h
            obtain ⟨a, b, hout, hcl⟩ := finishIaw_handedOut s2 v c1 c2
            rw [hout] at h
            simp only [EOut.okO.injEq, Option.some.injEq] at h
            have h2 := h.2
            subst h2
            exact Or.inr (Or.inl ⟨a, b, hcl⟩)
  | fi f dry =>
    dsimp only [engineStep]
    have hloopW := argsLoop_WFH (fun s2 nm => rec s2 (.byName nm false dry))
      (fun s2 t => rec s2 (.byType t false dry)) env
      (fun s2 nm hw2 => hrecW s2 _ hw2) (fun s2 t hw2 => hrecW s2 _ hw2)
      f.ins s [] [] hw
    split
    · next s1 cls e heq =>
      rw [heq] at hloopW
      exact ⟨WFH_rcframe (runCleanList_frame rc cls s1) hloopW,
        fun v c hF _ => hF.elim, fun e2 c h => by simp at h⟩
    · next s1 cls argv heq =>
      rw [heq] at hloopW
      split
      · split
        · exact ⟨hloopW, fun v c hF _ => hF.elim, fun e c h => by simp at h⟩
        · exact ⟨hloopW, fun v c hF _ => hF.elim, fun e c h => by simp at h⟩
      · have hwCall : WFH (callFn s1 f argv).1 := by
          have hI : ∀ j, (callFn s1 f argv).1.injAt j = s1.injAt j :=
            callFn_injAt s1 f argv
          exact WFH_evolves_injEq (evolves_callFn s1 f argv) hI hloopW
        split
        · next s2 heq2 =>
          have hw2 : WFH s2 := by rw [heq2] at hwCall; exact hwCall
          exact ⟨WFH_evolves_injEq (evolves_mkFiClear s2 cls none .vnil)
            (fun j => rfl) hw2,
            fun v c hF _ => hF.elim, fun e c h => by simp [mkFiClear] at h⟩
        · next s2 r0 heq2 =>
          have hw2 : WFH s2 := by rw [heq2] at hwCall; exact hwCall
          exact ⟨WFH_evolves_injEq
            (evolves_mkFiClear s2 cls none (dynVal r0)) (fun j => rfl) hw2,
            fun v c hF _ => hF.elim, fun e c h => by simp [mkFiClear] at h⟩
        · next s2 r0 r1 more heq2 =>
          have hw2 : WFH s2 := by rw [heq2] at hwCall; exact hwCall
          split
          · next e heqe =>
            exact ⟨WFH_rcframe (runCleanList_frame rc cls s2) hw2,
              fun v c hF _ => hF.elim, fun e2 c h => by simp at h⟩
          · split
            · next copt heq1 =>
              exact ⟨WFH_evolves_injEq
                (evolves_mkFiClear s2 cls copt (dynVal r0)) (fun j => rfl)
                hw2, fun v c hF _ => hF.elim,
                fun e c h => by simp [mkFiClear] at h⟩
            · exact ⟨WFH_evolves_injEq
                (evolves_mkFiClear s2 cls none (dynVal r0)) (fun j => rfl)
                hw2, fun v c hF _ => hF.elim,
                fun e c h => by simp [mkFiClear] at h⟩
  | wf sid dry =>
    dsimp only [engineStep]
    have hloopW := wfLoop_WFH (fun s2 nm tr => rec s2 (.byName nm tr dry))
      (fun s2 t tr => rec s2 (.byType t tr dry))
      (fun s2 nm tr hw2 => hrecW s2 _ hw2)
      (fun s2 t tr hw2 => hrecW s2 _ hw2)
      (env.fieldsA sid) s [] hw
    split
    · next s1 cls e heq =>
      rw [heq] at hloopW
      exact ⟨WFH_rcframe (runCleanList_frame rc cls s1) hloopW,
        fun v c _ h => by simp at h, fun e2 c h => by simp at h⟩
    · next s1 cls u heq =>
      rw [heq] at hloopW
      split
      · refine ⟨WFH_evolves_injEq (evolves_mkDepsClean s1 cls)
          (fun j => rfl) hloopW, ?_, fun e c h => by simp at h⟩
        intro v c _ h
        simp only [EOut.okO.injEq, Option.some.injEq] at h
        have h2 := h.2
        subst h2
        exact Or.inr (Or.inr (Or.inl ⟨_, mkDepsClean_handed s1 cls⟩))
      · next aw haw =>
        cases hrc : aw.retClean with
        | none =>
          dsimp only
          have hwS2 : WFH { s1 with awCalls := s1.awCalls ++ [aw.awTag] } :=
            hloopW
          have hwpa : WFH (mkAwClean
              { s1 with awCalls := s1.awCalls ++ [aw.awTag] } cls none).1 :=
            WFH_evolves_injEq (evolves_mkAwClean _ cls none)
              (fun j => rfl) hwS2
          have hha := mkAwClean_handed
            { s1 with awCalls := s1.awCalls ++ [aw.awTag] } cls none
          split
          · next e heqe =>
            refine ⟨WFH_rcframe (runClean_frame rc _ _) hwpa,
              fun v c _ h => by simp at h, ?_⟩
            intro e2 c h
            simp only [EOut.errO.injEq, Option.some.injEq] at h
            have h2 := h.2
            subst h2
            exact mkAwClean_handedClos_run rc _ cls _
          · refine ⟨hwpa, ?_, fun e c h => by simp at h⟩
            intro v c _ h
            simp only [EOut.okO.injEq, Option.some.injEq] at h
            have h2 := h.2
            subst h2
            exact mkAwClean_handedClos _ cls _
        | some t =>
          dsimp only
          have hwS2 : WFH { s1 with awCalls := s1.awCalls ++ [aw.awTag] } :=
            hloopW
          have hwA : WFH (allocClos
              { s1 with awCalls := s1.awCalls ++ [aw.awTag] }
              (.base t)).1 :=
            WFH_evolves_injEq (evolves_allocClos _ _) (fun j => rfl) hwS2
          have hwpa : WFH (mkAwClean
              (allocClos { s1 with awCalls := s1.awCalls ++ [aw.awTag] }
                (.base t)).1 cls
              (some (allocClos
                { s1 with awCalls := s1.awCalls ++ [aw.awTag] }
                (.base t)).2)).1 :=
            WFH_evolves_injEq (evolves_mkAwClean _ cls _)
              (fun j => rfl) hwA
          have hha := mkAwClean_handed
            (allocClos { s1 with awCalls := s1.awCalls ++ [aw.awTag] }
              (.base t)).1 cls
            (some (allocClos
              { s1 with awCalls := s1.awCalls ++ [aw.awTag] }
              (.base t)).2)
          split
          · next e heqe =>
            refine ⟨WFH_rcframe (runClean_frame rc _ _) hwpa,
              fun v c _ h => by simp at h, ?_⟩
            intro e2 c h
            simp only [EOut.errO.injEq, Option.some.injEq] at h
            have h2 := h.2
            subst h2
            exact mkAwClean_handedClos_run rc _ cls _
          · refine ⟨hwpa, ?_, fun e c h => by simp at h⟩
            intro v c _ h
            simp only [EOut.okO.injEq, Option.some.injEq] at h
            have h2 := h.2
            subst h2
            exact mkAwClean_handedClos _ cls _

theorem engine_handed (env : Env) :
    ∀ (fuel : Nat) (s : St) (req : Req), WFH s →
      WFH (engine env fuel s req).st ∧
      (∀ v c, Req.handedReq req →
        (engine env fuel s req).out = .okO v (some c) →
        HandedClos (engine env fuel s req).st c) ∧
      (∀ e c, (engine env fuel s req).out = .errO e (some c) →
        HandedClos (engine env fuel s req).st c) := by
  intro fuel
  induction fuel with
  | zero =>
    intro s req hw
    exact ⟨hw, fun v c _ h => by simp [engine] at h,
      fun e c h => by simp [engine] at h⟩
  | succ fuel ih =>
    intro s req hw
    exact engineStep_handed env fuel (engine env fuel)
      (fun s2 r hw2 => (ih s2 r hw2).1)
      (fun s2 r v c hw2 ht h => (ih s2 r hw2).2.1 v c ht h)
      (fun s2 r e c hw2 h => (ih s2 r hw2).2.2 e c h)
      s req hw

/-- C9: in a container whose cached cleanups are the caching wrappers the
engine itself installs (WFH — true of every container built through the
API), every cleanup handed to the caller by Resolve, by GetByType, or by
Wire is idempotent: invoking it a second time, at any fuel, runs no
underlying cleanup callback again — the log gains nothing from the
repeat invocation. -/
theorem c9_handed_cleanup_idempotent (env : Env) (fuel rf : Nat) (s : St)
    (hw : WFH s) :
    (∀ nm s2 v c, resolve env fuel s nm = ⟨s2, .okO v (some c)⟩ →
      (runClean rf (runClean rf s2 c) c).log = (runClean rf s2 c).log) ∧
    (∀ t s2 v c, getByType env fuel s t = ⟨s2, .okO v (some c)⟩ →
      (runClean rf (runClean rf s2 c) c).log = (runClean rf s2 c).log) ∧
    (∀ tgt dry s2 c eopt, wire env fuel s tgt dry = (s2, some c, eopt) →
      (runClean rf (runClean rf s2 c) c).log = (runClean rf s2 c).log) := by
  refine ⟨?_, ?_, ?_⟩
  · intro nm s2 v c hr
    have h := engine_handed env fuel s (.byName nm false false) hw
    rw [show engine env fuel s (.byName nm false false) =
      resolve env fuel s nm from rfl, hr] at h
    exact handed_second_run rf s2 c (h.2.1 v c trivial rfl)
  · intro t s2 v c hr
    have h := engine_handed env fuel s (.byType t false false) hw
    rw [show engine env fuel s (.byType t false false) =
      getByType env fuel s t from rfl, hr] at h
    exact handed_second_run rf s2 c (h.2.1 v c trivial rfl)
  · intro tgt dry s2 c eopt hr
    have hhc : HandedClos s2 c := by
      unfold wire at hr
      cases tgt with
      | badT =>
        dsimp only at hr
        injection hr with h1 h2
        injection h2 with h3
        cases h3
      | fnT f =>
        dsimp only at hr
        cases hv : validateWireFunc f with
        | some e =>
          rw [hv] at hr
          dsimp only at hr
          injection hr with h1 h2
          injection h2 with h3
          cases h3
        | none =>
          rw [hv] at hr
          dsimp only at hr
          cases hre : engine env fuel s (.fi f dry) with
          | mk s1 out =>
            rw [hre] at hr
            cases out with
            | okO v c2 =>
              dsimp only at hr
              injection hr with h1 h2
              injection h2 with h3
              cases h3
            | errO e c2 =>
              dsimp only at hr
              injection hr with h1 h2
              injection h2 with h3
              cases h3
      | ptrT sid =>
        dsimp only at hr
        have h := engine_handed env fuel s (.wf sid dry) hw
        cases hre : engine env fuel s (.wf sid dry) with
        | mk s1 out =>
          rw [hre] at hr h
          cases out with
          | okO v c2 =>
            dsimp only at hr
            injection hr with h1 h2
            injection h2 with h3
            subst h1
            subst h3
            exact h.2.1 v c trivial rfl
          | errO e c2 =>
            dsimp only at hr
            injection hr with h1 h2
            injection h2 with h3
            subst h1
            subst h3
            exact h.2.2 e c rfl
    exact handed_second_run rf s2 c hhc

theorem c9_witness :
    WFH cS3 ∧
    resolve cEnv 11 cS3 "a" = ⟨cS3, .okO (.prim (.atom 5) 0) (some 1)⟩ ∧
    (runClean 5 (runClean 5 cS3 1) 1).log = (runClean 5 cS3 1).log ∧
    getByType cEnv 11 cS3 (.ifaceT 7) =
      ⟨cS3, .okO (.prim (.atom 2) 77) (some 3)⟩ ∧
    (runClean 5 (runClean 5 cS3 3) 3).log = (runClean 5 cS3 3).log ∧
    wire cEnv 11 cS3 (.ptrT 0) false =
      ((wire cEnv 11 cS3 (.ptrT 0) false).1, some 4, none) ∧
    (runClean 5 (runClean 5 (wire cEnv 11 cS3 (.ptrT 0) false).1 4) 4).log =
      (runClean 5 (wire cEnv 11 cS3 (.ptrT 0) false).1 4).log := by
  have hwfh : WFH cS3 := by
    intro i inj c hinj hc
    match i with
    | 0 =>
      have h0 : cS3.injAt 0 = some cInjA := rfl
      rw [h0] at hinj
      injection hinj with h1
      subst h1
      rw [show cInjA.clean = some 1 from rfl] at hc
      injection hc with h2
      subst h2
      exact ⟨2, 0, rfl⟩
    | 1 =>
      have h0 : cS3.injAt 1 = some cInjB := rfl
      rw [h0] at hinj
      injection hinj with h1
      subst h1
      rw [show cInjB.clean = some 3 from rfl] at hc
      injection hc with h2
      subst h2
      exact ⟨5, 1, rfl⟩
    | (n + 2) =>
      have h0 : cS3.injAt (n + 2) = none := rfl
      rw [h0] at hinj
      cases hinj
  have h := c9_handed_cleanup_idempotent cEnv 11 5 cS3 hwfh
  exact ⟨hwfh, rfl,
    h.1 "a" cS3 (.prim (.atom 5) 0) 1 rfl,
    rfl,
    h.2.1 (.ifaceT 7) cS3 (.prim (.atom 2) 77) 3 rfl,
    rfl,
    h.2.2 (.ptrT 0) false (wire cEnv 11 cS3 (.ptrT 0) false).1 4 none rfl⟩

end Picodi
